import Mathlib

/-!
Verification development for a Total Commander packer plugin implementing a
custom archive container format (file `src/archive.cpp`, `src/utils.cpp`).

The embedding models:
  * wide strings as `List Nat` of UTF-16 code units, bytes as `List Nat` with
    values `< 256`;
  * the on-disk archive as the 8-byte file magic followed by serialized entry
    records (28-byte packed header, path code units, payload bytes), all
    little-endian;
  * the WCX error codes thrown by the C++ code as `Nat` constants, with
    fallible operations returning `Except Nat`;
  * `towupper` / `towlower` (and hence `_wcsicmp`) with ASCII case folding;
  * `std::lower_bound` as the MSVC-style binary search over a list;
  * `std::sort` as `List.mergeSort` (all uses in the source are insensitive
    to the order of equivalent elements);
  * the progress-reporting callbacks (`UpdateBytesProcessedProgress`,
    `UpdateDirectProgress`) as absent / non-cancelling: they are a real-time,
    host-interaction channel orthogonal to the verified properties.
-/

/-- Decidable equality for `Except`, used to evaluate the models on
concrete inputs. -/
instance {e a : Type} [DecidableEq e] [DecidableEq a] : DecidableEq (Except e a) :=
  fun x y =>
    match x, y with
    | .error u, .error v =>
      if h : u = v then isTrue (by rw [h]) else isFalse (by intro hc; cases hc; exact h rfl)
    | .ok u, .ok v =>
      if h : u = v then isTrue (by rw [h]) else isFalse (by intro hc; cases hc; exact h rfl)
    | .error _, .ok _ => isFalse (by intro hc; cases hc)
    | .ok _, .error _ => isFalse (by intro hc; cases hc)

/-! ## WCX error codes (wcxhead.h) and format constants -/

def E_END_ARCHIVE : Nat := 10
def E_NO_MEMORY : Nat := 11
def E_BAD_DATA : Nat := 12
def E_BAD_ARCHIVE : Nat := 13
def E_UNKNOWN_FORMAT : Nat := 14
def E_EOPEN : Nat := 15
def E_ECREATE : Nat := 16
def E_EREAD : Nat := 18
def E_EWRITE : Nat := 19
def E_SMALL_BUF : Nat := 20
def E_EABORTED : Nat := 21
def E_NOT_SUPPORTED : Nat := 24

def kEntryFlagDeleted : Nat := 0x01
def kEntryFlagCompressed : Nat := 0x02

def FILE_ATTR_DIRECTORY : Nat := 0x10

def kMaxFileNameLen : Nat := 1024
def kEnableCompression : Bool := true
def kEntryMagic : Nat := 0x1743C8F1
def kBufSize : Nat := 0x10000
def kMinFileSizeForCompression : Nat := 16

/-- The 8-byte file magic `"SMPA100A"` as ASCII bytes (`kFileHeader`). -/
def kFileHeaderBytes : List Nat := [83, 77, 80, 65, 49, 48, 48, 65]

/-! ## Character folding and case-insensitive comparison

`UpperCase` uses `towupper`, `_wcsicmp` folds through `towlower`; both are
modelled with ASCII case folding on UTF-16 code units. -/

def towupper (c : Nat) : Nat := if 97 ≤ c ∧ c ≤ 122 then c - 32 else c

def towlower (c : Nat) : Nat := if 65 ≤ c ∧ c ≤ 90 then c + 32 else c

/-- `UpperCase` from `utils.cpp`: in-place upper-casing of a wide string. -/
def upperCase (s : List Nat) : List Nat := s.map towupper

/-- Lexicographic three-way comparison of code-unit lists; this is the
comparison performed by `std::wstring::operator<` (via `wmemcmp`-style
element-wise compare) on NUL-free strings. -/
def listCompare : List Nat → List Nat → Ordering
  | [], [] => .eq
  | [], _ :: _ => .lt
  | _ :: _, [] => .gt
  | a :: as, b :: bs =>
    if a < b then .lt else if b < a then .gt else listCompare as bs

/-- `_wcsicmp` as a three-way comparison: compares `towlower`-folded
code units one at a time, exactly as the CRT loop does. -/
def wcsicmp : List Nat → List Nat → Ordering
  | [], [] => .eq
  | [], _ :: _ => .lt
  | _ :: _, [] => .gt
  | a :: as, b :: bs =>
    if towlower a < towlower b then .lt
    else if towlower b < towlower a then .gt
    else wcsicmp as bs

/-- `StricmpPred` from `utils.hpp`: strict case-insensitive less-than. -/
def stricmpLt (a b : List Nat) : Bool := wcsicmp a b == .lt

/-- `std::wstring::operator<`: strict lexicographic less-than. -/
def listLt (a b : List Nat) : Bool := listCompare a b == .lt

/-! ## Path utilities from `utils.cpp` -/

def isSlash (c : Nat) : Bool := c == 92 || c == 47

/-- Helper for `find_last_of(L"\\\\/")`: index of the last path separator. -/
def findLastSlashAux : List Nat → Nat → Option Nat → Option Nat
  | [], _, acc => acc
  | c :: rest, i, acc =>
    findLastSlashAux rest (i + 1) (if isSlash c then some i else acc)

def findLastSlash (p : List Nat) : Option Nat := findLastSlashAux p 0 none

/-- `ExtractFileName`: file name after the last separator (the whole path
when there is no separator). -/
def extractFileName (p : List Nat) : List Nat :=
  match findLastSlash p with
  | none => p
  | some i => p.drop (i + 1)

/-- `UpDir`: strip the last path component (clears the path when it has no
separator). -/
def upDir (p : List Nat) : List Nat :=
  match findLastSlash p with
  | none => []
  | some i => p.take i

/-- `StripTrailingSlash`: drop one trailing `'\\'` or `'/'`. -/
def stripTrailingSlash (p : List Nat) : List Nat :=
  if p ≠ [] ∧ (p.getLast? = some 92 ∨ p.getLast? = some 47) then p.dropLast
  else p

/-- `CombinePath`: join a directory and a name, inserting `'\\'` when the
directory is nonempty, the name is nonempty and the directory does not
already end in a separator. -/
def combinePath (path name : List Nat) : List Nat :=
  if path ≠ [] ∧ name ≠ [] ∧ path.getLast? ≠ some 92 ∧ path.getLast? ≠ some 47
  then path ++ [92] ++ name
  else path ++ name

/-! ## Entry records and their little-endian serialization -/

structure EntryHeader where
  magic : Nat
  flags : Nat
  attributes : Nat
  time : Nat
  pack_size : Nat
  unp_size : Nat
  path_len : Nat
deriving DecidableEq

instance : Inhabited EntryHeader :=
  ⟨{ magic := 0, flags := 0, attributes := 0, time := 0, pack_size := 0,
     unp_size := 0, path_len := 0 }⟩

/-- One entry record as it sits in the archive: the packed header, the path
code units and the (possibly compressed) payload bytes. -/
structure Entry where
  header : EntryHeader
  path : List Nat
  payload : List Nat
deriving DecidableEq

instance : Inhabited Entry := ⟨{ header := default, path := [], payload := [] }⟩

def u16le (n : Nat) : List Nat := [n % 256, n / 256 % 256]

def u32le (n : Nat) : List Nat :=
  [n % 256, n / 256 % 256, n / 65536 % 256, n / 16777216 % 256]

def u64le (n : Nat) : List Nat :=
  [n % 256, n / 256 % 256, n / 65536 % 256, n / 16777216 % 256,
   n / 4294967296 % 256, n / 1099511627776 % 256,
   n / 281474976710656 % 256, n / 72057594037927936 % 256]

/-- Serialized bytes of the packed `EntryHeader` struct (28 bytes,
`#pragma pack(1)`, little-endian): magic, flags, attributes, time,
pack_size, unp_size, path_len. -/
def serializeHeader (h : EntryHeader) : List Nat :=
  u32le h.magic ++ [h.flags % 256, h.attributes % 256] ++ u32le h.time ++
    u64le h.pack_size ++ u64le h.unp_size ++ u16le h.path_len

/-- The path's UTF-16 code units as bytes, two per unit, little-endian. -/
def pathBytes : List Nat → List Nat
  | [] => []
  | c :: rest => u16le c ++ pathBytes rest

def serializeEntry (e : Entry) : List Nat :=
  serializeHeader e.header ++ pathBytes e.path ++ e.payload

def serializeEntries : List Entry → List Nat
  | [] => []
  | e :: rest => serializeEntry e ++ serializeEntries rest

/-- The whole archive file: `"SMPA100A"` followed by the entry records. -/
def serializeArchive (entries : List Entry) : List Nat :=
  kFileHeaderBytes ++ serializeEntries entries

/-- Number of bytes one entry record occupies in the file. -/
def entrySize (e : Entry) : Nat := 28 + 2 * e.path.length + e.payload.length

/-! ## The tombstoning scan `ArchiveBase::DeleteIf`

The scan walks all entry records; entries already carrying the Deleted flag
are skipped (their payload seeked over), every other entry is offered to the
predicate and, on a match, gets the Deleted bit ORed into its flags byte
in place.  The structural model below records exactly those decisions; the
byte-level effect is recovered through `serializeArchive`. -/

def setDeleted (e : Entry) : Entry :=
  { e with header := { e.header with flags := e.header.flags ||| kEntryFlagDeleted } }

def deleteIfEntry (pred : List Nat → Bool) (e : Entry) : Entry :=
  if e.header.flags &&& kEntryFlagDeleted ≠ 0 then e
  else if pred e.path then setDeleted e
  else e

def deleteIf (pred : List Nat → Bool) (entries : List Entry) : List Entry :=
  entries.map (deleteIfEntry pred)

/-! ## `std::lower_bound`

Modelled as the MSVC-STL binary search (`_Lower_bound_unchecked`): halve the
window, probe the middle element, keep the upper or lower half.  On a range
sorted by `lt` this returns the first position whose element is not
`lt`-below the value. -/

def lowerBoundAux (lt : List Nat → List Nat → Bool) (xs : List (List Nat))
    (v : List Nat) (first count : Nat) : Nat :=
  if h : count = 0 then first
  else
    let count2 := count / 2
    let mid := first + count2
    if lt (xs.getD mid []) v then
      lowerBoundAux lt xs v (mid + 1) (count - count2 - 1)
    else
      lowerBoundAux lt xs v first count2
termination_by count
decreasing_by
  · omega
  · exact Nat.div_lt_self (Nat.pos_of_ne_zero h) (by omega)

/-- Index returned by `std::lower_bound(xs.begin(), xs.end(), v, lt)`
(equal to `xs.length` when the iterator is `end()`). -/
def lowerBound (lt : List Nat → List Nat → Bool) (xs : List (List Nat))
    (v : List Nat) : Nat :=
  lowerBoundAux lt xs v 0 xs.length

/-! ## The erase operation (`DeletingArchive`) -/

/-- Bound needed for termination of the `ShouldDelete` loop: any index
recorded by `findLastSlashAux` is below the absolute end of the string. -/
theorem findLastSlashAux_lt (p : List Nat) : ∀ (i : Nat) (acc : Option Nat),
    (∀ j, acc = some j → j < i) →
    ∀ j, findLastSlashAux p i acc = some j → j < i + p.length := by
  induction p with
  | nil =>
    intro i acc hacc j hj
    simp only [findLastSlashAux] at hj
    have := hacc j hj
    omega
  | cons c rest ih =>
    intro i acc hacc j hj
    simp only [findLastSlashAux] at hj
    have := ih (i + 1) (if isSlash c then some i else none)
    by_cases hc : isSlash c
    · simp only [hc, if_pos] at hj
      have := ih (i + 1) (some i) (by intro j hj'; cases hj'; omega) j hj
      simp only [List.length_cons]
      omega
    · simp only [hc] at hj
      have := ih (i + 1) acc (by intro j hj'; have := hacc j hj'; omega) j hj
      simp only [List.length_cons]
      omega

theorem findLastSlash_lt (p : List Nat) :
    ∀ j, findLastSlash p = some j → j < p.length := by
  intro j hj
  have := findLastSlashAux_lt p 0 none (by intro j hj'; cases hj') j hj
  omega

theorem upDir_length_lt (p : List Nat) (hp : p ≠ []) :
    (upDir p).length < p.length := by
  unfold upDir
  cases h : findLastSlash p with
  | none =>
    simp only [List.length_nil]
    exact List.length_pos.mpr hp
  | some i =>
    have := findLastSlash_lt p i h
    simp only [List.length_take]
    omega

/-- `DeletingArchive::ShouldDelete`'s climbing loop, already applied to the
upper-cased current path: test membership in the sorted deletion set via
`lower_bound`, else climb to the parent and repeat until the path is empty. -/
def shouldDeleteGo (paths_to_delete : List (List Nat)) (p : List Nat) : Bool :=
  if hp : p = [] then false
  else
    let i := lowerBound listLt paths_to_delete p
    if i < paths_to_delete.length ∧ paths_to_delete.getD i [] = p then true
    else shouldDeleteGo paths_to_delete (upDir p)
termination_by p.length
decreasing_by exact upDir_length_lt p hp

/-- `DeletingArchive::ShouldDelete`: upper-case the candidate path, then run
the ancestor-climbing membership loop. -/
def shouldDelete (curr_path : List Nat) (paths_to_delete : List (List Nat)) : Bool :=
  shouldDeleteGo paths_to_delete (upperCase curr_path)

/-- Normalization applied to each incoming deletion path in `DeleteFilesW`:
strip a `"*.*"` suffix, strip a trailing separator, upper-case. -/
def normalizeDeletePath (p : List Nat) : List Nat :=
  let p1 := if p.length ≥ 3 ∧ p.drop (p.length - 3) = [42, 46, 42]
            then p.take (p.length - 3) else p
  upperCase (stripTrailingSlash p1)

/-- The normalized, sorted deletion set built by `DeleteFilesW`. -/
def normalizeDeleteList (deleteList : List (List Nat)) : List (List Nat) :=
  (deleteList.map normalizeDeletePath).mergeSort
    (fun a b => !(listLt b a))

/-- The archive file as relevant to the erase operation: the leading 8 bytes
(checked by `ReadAndCheckHeader`) and the decoded entry records. -/
structure DiskFile where
  header : List Nat
  entries : List Entry
deriving DecidableEq

/-- `DeletingArchive::DeleteFilesW` over a decoded archive.  The file
argument is `none` when `_wfopen_s` fails (`OpenForDelete` throws
`E_ECREATE`).  Progress callbacks are modelled as absent (never cancel).
Returns the WCX result code and the file afterwards. -/
def deleteFilesW (file : Option DiskFile) (deleteList : List (List Nat)) :
    Except Nat (Nat × Option DiskFile) :=
  let paths_to_delete := normalizeDeleteList deleteList
  if paths_to_delete.isEmpty then .ok (0, file)
  else
    match file with
    | none => .error E_ECREATE
    | some f =>
      if f.header = kFileHeaderBytes then
        .ok (0, some { f with
          entries := deleteIf (fun p => shouldDelete p paths_to_delete) f.entries })
      else .error E_BAD_ARCHIVE

/-! ## The entry-header decoder `ArchiveBase::ReadEntryHeader`

Byte-level model.  `fread(&hdr, 28, 1, f)` returns 0 complete elements
whenever fewer than 28 bytes remain, in which case `ReadEntryHeader`
returns `false` (end of archive); this includes a non-empty tail shorter
than a full header. -/

/-- Little-endian value of a byte list. -/
def leNat (bs : List Nat) : Nat := bs.foldr (fun b acc => b + 256 * acc) 0

/-- Decode consecutive 2-byte little-endian UTF-16 code units. -/
def decodeU16Pairs : List Nat → List Nat
  | b0 :: b1 :: rest => (b0 + 256 * b1) :: decodeU16Pairs rest
  | _ => []

/-- The 28-byte packed `EntryHeader` decoded from the front of `bs`. -/
def decodeHeader (bs : List Nat) : EntryHeader :=
  { magic := leNat (bs.take 4)
    flags := bs.getD 4 0
    attributes := bs.getD 5 0
    time := leNat ((bs.drop 6).take 4)
    pack_size := leNat ((bs.drop 10).take 8)
    unp_size := leNat ((bs.drop 18).take 8)
    path_len := leNat ((bs.drop 26).take 2) }

/-- `ArchiveBase::ReadEntryHeader` on the remaining file bytes `bs`:
`ok none` = returned `false` (end of archive); otherwise the decoded
header, the decoded path and the bytes left after the path. -/
def readEntryHeader (bs : List Nat) :
    Except Nat (Option (EntryHeader × List Nat × List Nat)) :=
  if bs.length < 28 then .ok none
  else
    let h := decodeHeader bs
    if h.magic ≠ kEntryMagic then .error E_BAD_ARCHIVE
    else if h.path_len = 0 then .error E_BAD_ARCHIVE
    else if h.path_len > kMaxFileNameLen - 1 then .error E_SMALL_BUF
    else
      let rest := bs.drop 28
      if rest.length < 2 * h.path_len then .error E_EREAD
      else .ok (some (h, decodeU16Pairs (rest.take (2 * h.path_len)),
                      rest.drop (2 * h.path_len)))

theorem readEntryHeader_rest_lt (bs : List Nat)
    (h : EntryHeader) (p rest : List Nat)
    (heq : readEntryHeader bs = .ok (some (h, p, rest))) :
    rest.length < bs.length := by
  unfold readEntryHeader at heq
  by_cases h28 : bs.length < 28
  · simp only [h28, if_pos] at heq
    cases heq
  · simp only [h28, if_neg, if_false] at heq
    split at heq
    · cases heq
    · split at heq
      · cases heq
      · split at heq
        · cases heq
        · split at heq
          · cases heq
          · cases heq
            simp only [List.length_drop]
            omega

/-- The scanning loop inside `ReadHeaderExW`: decode entries, seek past the
payload of any Deleted entry, stop at the first live entry or at end of
archive. -/
def nextLive (bs : List Nat) :
    Except Nat (Option (EntryHeader × List Nat)) :=
  match heq : readEntryHeader bs with
  | .error e => .error e
  | .ok none => .ok none
  | .ok (some (h, p, rest)) =>
    if h.flags &&& kEntryFlagDeleted ≠ 0 then
      nextLive (rest.drop h.pack_size)
    else .ok (some (h, p))
termination_by bs.length
decreasing_by
  have := readEntryHeader_rest_lt bs h p rest heq
  simp only [List.length_drop]
  omega

/-- `ReadingArchive::ReadHeaderExW`: find the next live entry, then validate
it (directory entries must have zero sizes; non-compressed entries must
have equal packed and original sizes); end of archive is reported as
`E_END_ARCHIVE`. -/
def readHeaderExW (bs : List Nat) : Except Nat (EntryHeader × List Nat) :=
  match nextLive bs with
  | .error e => .error e
  | .ok none => .error E_END_ARCHIVE
  | .ok (some (h, p)) =>
    if h.attributes &&& FILE_ATTR_DIRECTORY ≠ 0 ∧ (0 < h.pack_size ∨ 0 < h.unp_size)
    then .error E_BAD_ARCHIVE
    else if h.flags &&& kEntryFlagCompressed = 0 ∧ h.unp_size ≠ h.pack_size
    then .error E_BAD_ARCHIVE
    else .ok (h, p)

/-! ## `RemoveFileNameDuplicates` from `utils.cpp`

The function builds a `std::map` keyed case-insensitively by bare file name
whose value is the index of the latest path seen with that name; every
superseded index is pushed onto a removal list, which is then sorted and
processed from the largest index down with the swap-with-last trick. -/

/-- `std::map::find` with the `StricmpPred` comparator on an association
list: the entry whose key is case-insensitively equivalent. -/
def mapFind (m : List (List Nat × Nat)) (name : List Nat) : Option Nat :=
  match m with
  | [] => none
  | kv :: rest => if wcsicmp kv.1 name = .eq then some kv.2 else mapFind rest name

/-- `it->second = path_index` on the (unique) equivalent key. -/
def mapUpdate (m : List (List Nat × Nat)) (name : List Nat) (idx : Nat) :
    List (List Nat × Nat) :=
  match m with
  | [] => []
  | kv :: rest =>
    if wcsicmp kv.1 name = .eq then (kv.1, idx) :: rest
    else kv :: mapUpdate rest name idx

/-- The scanning loop of `RemoveFileNameDuplicates`: walk the paths with
their indices, maintaining the name-to-latest-index map and the list of
superseded indices (in push order). -/
def buildDupState : List (List Nat) → Nat → List (List Nat × Nat) →
    List Nat → (List (List Nat × Nat) × List Nat)
  | [], _, m, rem => (m, rem)
  | p :: rest, i, m, rem =>
    let name := extractFileName p
    match mapFind m name with
    | none => buildDupState rest (i + 1) (m ++ [(name, i)]) rem
    | some prev => buildDupState rest (i + 1) (mapUpdate m name i) (rem ++ [prev])

/-- One round of the removal loop: swap the element at `i` with the last
element (when `i` is not already last), then `pop_back`. -/
def swapRemove (paths : List (List Nat)) (i : Nat) : List (List Nat) :=
  if i + 1 < paths.length then
    (paths.set i (paths.getD (paths.length - 1) [])).dropLast
  else paths.dropLast

/-- The removal loop: indices processed from the largest down
(`for(i = idxs.size(); i--;)` over the ascending-sorted index list). -/
def applyRemovals (paths : List (List Nat)) (sortedIdxs : List Nat) :
    List (List Nat) :=
  sortedIdxs.foldr (fun i acc => swapRemove acc i) paths

/-- `RemoveFileNameDuplicates`. -/
def removeFileNameDuplicates (paths : List (List Nat)) : List (List Nat) :=
  let st := buildDupState paths 0 [] []
  applyRemovals paths (st.2.mergeSort (fun a b => a ≤ b))

/-- Stated from the spec, for comparison with the implementation: keep
exactly the paths whose bare file name (case-insensitively) does not occur
again at a later position. -/
def lastOccurrenceSurvivors : List (List Nat) → List (List Nat)
  | [] => []
  | p :: rest =>
    (if rest.any (fun q => wcsicmp (extractFileName p) (extractFileName q) == .eq)
     then [] else [p]) ++ lastOccurrenceSurvivors rest

/-! ## The pack operation (`PackingArchive::PackFilesW`)

Candidate-list construction: parse the add list (directories carry a
trailing backslash and are dropped in flatten mode), strip trailing
separators, remove duplicate file names in flatten mode, sort with
`StricmpPred`, then map every relative path to its in-archive path. -/

/-- The surviving, sorted candidate list of relative paths built by
`PackFilesW` (`save_paths = false` is flatten mode). -/
def packCandidates (save_paths : Bool) (addList : List (List Nat)) :
    List (List Nat) :=
  let kept := addList.filter (fun p => save_paths || !(p.getLast? == some 92))
  let rel := kept.map stripTrailingSlash
  let rel := if !save_paths then removeFileNameDuplicates rel else rel
  rel.mergeSort (fun a b => !(stricmpLt b a))

/-- The in-archive path of each candidate: `CombinePath(subPath, rel)` when
paths are preserved, `CombinePath(subPath, ExtractFileName(rel))` in
flatten mode. -/
def archivePaths (save_paths : Bool) (subPath : List Nat)
    (rels : List (List Nat)) : List (List Nat) :=
  rels.map (fun relative_path =>
    if save_paths then combinePath subPath relative_path
    else combinePath subPath (extractFileName relative_path))

/-- The predicate `PackFilesW` passes to `DeleteIf` over a pre-existing
archive: `lower_bound` into the in-archive path list with `StricmpPred`,
then a case-insensitive equality check against the found element. -/
def packPred (archive_paths_to_add : List (List Nat)) (path : List Nat) : Bool :=
  let i := lowerBound stricmpLt archive_paths_to_add path
  decide (i < archive_paths_to_add.length) &&
    (wcsicmp path (archive_paths_to_add.getD i []) == .eq)

/-- The tombstoning pass `PackFilesW` runs over the entries of a
pre-existing archive before appending the new entries. -/
def packFilesTombstonePhase (save_paths : Bool) (subPath : List Nat)
    (addList : List (List Nat)) (entries : List Entry) : List Entry :=
  deleteIf
    (packPred (archivePaths save_paths subPath (packCandidates save_paths addList)))
    entries

/-! ## Compression policy and `PackingArchive::PackFile` -/

/-- `EnableCompressionForFile`. -/
def EnableCompressionForFile (file_size : Nat) : Bool :=
  kEnableCompression && decide (file_size ≥ kMinFileSizeForCompression)

/-- The entry record `PackFile` leaves in the archive for a regular file
with content `src`.  The deflate encoder (zlib, an external collaborator)
is abstracted as a function `deflate` from content to compressed bytes;
attributes and time come from the OS collaborator and are not modelled.
The header's `pack_size` is written as `unp_size` first and patched in
place after encoding only when the byte counts differ. -/
def packFileEntry (deflate : List Nat → List Nat) (archive_path : List Nat)
    (src : List Nat) : Entry :=
  let path := stripTrailingSlash archive_path
  let unp := src.length
  let comp := EnableCompressionForFile unp
  let payload := if comp then deflate src else src
  let patched := if comp ∧ payload.length ≠ unp then payload.length else unp
  { header :=
      { magic := kEntryMagic
        flags := if comp then kEntryFlagCompressed else 0
        attributes := 0
        time := 0
        pack_size := patched
        unp_size := unp
        path_len := path.length }
    path := path
    payload := payload }

/-! ## `ZlibResultToWcxException` and the inflate loop of
`ReadingArchive::UnpackFileContent`

zlib itself is external; each call to `inflate` is abstracted as one
`InflateStep` drawn from an oracle list: the result code it returns, the
input bytes it consumes and the output bytes it produces (at most one
output buffer per call). -/

def Z_OK : Int := 0
def Z_STREAM_END : Int := 1
def Z_STREAM_ERROR : Int := -2
def Z_DATA_ERROR : Int := -3
def Z_MEM_ERROR : Int := -4
def Z_BUF_ERROR : Int := -5

/-- `ZlibResultToWcxException`: `none` means the function returns without
throwing, `some e` means it throws the WCX error code `e`. -/
def ZlibResultToWcxException (zlib_result : Int) : Option Nat :=
  if zlib_result = Z_OK then none
  else if zlib_result = Z_MEM_ERROR then some E_NO_MEMORY
  else if zlib_result = Z_STREAM_ERROR then some E_BAD_ARCHIVE
  else some E_BAD_DATA

structure InflateStep where
  zres : Int
  consumed : Nat
  produced : Nat

/-- The decompression loop of `UnpackFileContent` (compressed branch).
State: unread compressed bytes in the file, bytes in the input buffer,
total bytes written so far.  Returns `ok true` on normal completion and
`ok false` when the oracle list runs out (a model artifact: real zlib
always answers). -/
def unpackLoop (dst_file_size : Nat) (steps : List InflateStep)
    (src_bytes_left avail_in total_written : Nat) : Except Nat Bool :=
  match steps with
  | [] => .ok false
  | s :: rest =>
    let refill := avail_in = 0 ∧ 0 < src_bytes_left
    let bytes_read := min src_bytes_left kBufSize
    let avail_in1 := if refill then bytes_read else avail_in
    let src_left1 := if refill then src_bytes_left - bytes_read else src_bytes_left
    if s.zres ≠ Z_OK ∧ s.zres ≠ Z_STREAM_END then
      match ZlibResultToWcxException s.zres with
      | some e => .error e
      | none => .ok false
    else
      let avail_out := kBufSize - s.produced
      let avail_in2 := avail_in1 - s.consumed
      let wrote := avail_out < kBufSize
      let total1 := if wrote then total_written + (kBufSize - avail_out) else total_written
      if s.zres = Z_STREAM_END then
        if total1 = dst_file_size then .ok true else .error E_BAD_ARCHIVE
      else if ¬(refill ∨ wrote) then .error E_BAD_ARCHIVE
      else unpackLoop dst_file_size rest src_left1 avail_in2 total1

/-- `UnpackFileContent` for a compressed payload of `src_file_size` bytes
expanding to `dst_file_size` bytes, driven by the inflate oracle. -/
def unpackFileContentCompressed (dst_file_size src_file_size : Nat)
    (steps : List InflateStep) : Except Nat Bool :=
  unpackLoop dst_file_size steps src_file_size 0 0

/-- Byte offsets, within the serialized entry stream starting at `base`, of
the flags bytes (offset 4 of each record) of the live entries matched by
`pred` — the bytes `DeleteIf` rewrites. -/
def flagsOffsets (pred : List Nat → Bool) : List Entry → Nat → List Nat
  | [], _ => []
  | e :: rest, base =>
    (if e.header.flags &&& kEntryFlagDeleted = 0 ∧ pred e.path = true
     then [base + 4] else []) ++ flagsOffsets pred rest (base + entrySize e)

/-- The serialized bytes of an entry record after its magic and flags byte. -/
def entryTailBytes (e : Entry) : List Nat :=
  [e.header.attributes % 256] ++ u32le e.header.time ++
    u64le e.header.pack_size ++ u64le e.header.unp_size ++
    u16le e.header.path_len ++ pathBytes e.path ++ e.payload

/-- Well-formedness of an entry record: field values fit their on-disk
widths, the magic is the entry magic, the recorded lengths match the
actual path and payload, and the path satisfies the format's bounds. -/
def WFEntry (e : Entry) : Prop :=
  e.header.magic = kEntryMagic ∧
  e.header.flags < 256 ∧
  e.header.attributes < 256 ∧
  e.header.time < 4294967296 ∧
  e.header.pack_size < 18446744073709551616 ∧
  e.header.unp_size < 18446744073709551616 ∧
  e.header.path_len = e.path.length ∧
  0 < e.path.length ∧
  e.path.length ≤ 1023 ∧
  (∀ c ∈ e.path, c < 65536) ∧
  e.payload.length = e.header.pack_size

instance (e : Entry) : Decidable (WFEntry e) := by
  unfold WFEntry
  infer_instance

/-! ## Order lemmas for the comparators -/

theorem ordering_beq_iff (a b : Ordering) : (a == b) = true ↔ a = b := by
  cases a <;> cases b <;> decide

theorem ordering_beq_false_iff (a b : Ordering) : (a == b) = false ↔ a ≠ b := by
  cases a <;> cases b <;> decide

theorem listCompare_eq_iff : ∀ a b : List Nat, listCompare a b = .eq ↔ a = b := by
  intro a
  induction a with
  | nil =>
    intro b
    cases b <;> simp [listCompare]
  | cons x as ih =>
    intro b
    cases b with
    | nil => simp [listCompare]
    | cons y bs =>
      simp only [listCompare]
      by_cases hxy : x < y
      · simp only [hxy, if_pos]
        constructor
        · intro h; cases h
        · intro h
          injection h with h1 _
          omega
      · by_cases hyx : y < x
        · simp only [hxy, hyx, if_neg, if_pos, if_false]
          constructor
          · intro h; cases h
          · intro h
            injection h with h1 _
            omega
        · have hxy' : x = y := by omega
          subst hxy'
          simp only [hxy, hyx, if_false, ih bs, List.cons.injEq, true_and]

theorem listCompare_swap : ∀ a b : List Nat,
    listCompare b a = (listCompare a b).swap := by
  intro a
  induction a with
  | nil =>
    intro b
    cases b <;> rfl
  | cons x as ih =>
    intro b
    cases b with
    | nil => rfl
    | cons y bs =>
      simp only [listCompare]
      by_cases hxy : x < y
      · have : ¬ y < x := by omega
        simp [hxy, this, Ordering.swap]
      · by_cases hyx : y < x
        · simp [hxy, hyx, Ordering.swap]
        · simp [hxy, hyx, ih bs]

theorem listCompare_lt_trans : ∀ a b c : List Nat,
    listCompare a b = .lt → listCompare b c = .lt → listCompare a c = .lt := by
  intro a
  induction a with
  | nil =>
    intro b c hab hbc
    cases b with
    | nil => cases hab
    | cons y bs =>
      cases c with
      | nil => cases hbc
      | cons z cs => rfl
  | cons x as ih =>
    intro b c hab hbc
    cases b with
    | nil => cases hab
    | cons y bs =>
      cases c with
      | nil => cases hbc
      | cons z cs =>
        simp only [listCompare] at hab hbc ⊢
        by_cases hxy : x < y
        · by_cases hyz : y < z
          · simp [show x < z by omega]
          · by_cases hzy : z < y
            · simp [hxy, hyz, hzy] at hbc
            · have : y = z := by omega
              subst this
              simp [hxy]
        · by_cases hyx : y < x
          · simp [hxy, hyx] at hab
          · have hxy' : x = y := by omega
            subst hxy'
            simp only [hxy, hyx, if_false] at hab
            by_cases hyz : x < z
            · simp [hyz]
            · by_cases hzy : z < x
              · simp [hyz, hzy] at hbc
              · have : x = z := by omega
                subst this
                simp only [hyz, hzy, if_false] at hbc ⊢
                exact ih bs cs hab hbc

theorem listCompare_ne_gt_trans (a b c : List Nat)
    (hab : listCompare a b ≠ .gt) (hbc : listCompare b c ≠ .gt) :
    listCompare a c ≠ .gt := by
  rcases h1 : listCompare a b with _ | _ | _
  · rcases h2 : listCompare b c with _ | _ | _
    · have := listCompare_lt_trans a b c h1 h2
      simp [this]
    · have : b = c := (listCompare_eq_iff b c).mp h2
      subst this
      simp [h1]
    · exact absurd h2 hbc
  · have : a = b := (listCompare_eq_iff a b).mp h1
    subst this
    exact hbc
  · exact absurd h1 hab

/-- Totality of the non-strict order induced by `listCompare`. -/
theorem listCompare_ne_gt_total (a b : List Nat) :
    listCompare a b ≠ .gt ∨ listCompare b a ≠ .gt := by
  rw [listCompare_swap a b]
  rcases listCompare a b with _ | _ | _ <;> simp [Ordering.swap]

/-- `wcsicmp` is `listCompare` on `towlower`-folded strings. -/
theorem wcsicmp_eq_listCompare : ∀ a b : List Nat,
    wcsicmp a b = listCompare (a.map towlower) (b.map towlower) := by
  intro a
  induction a with
  | nil =>
    intro b
    cases b <;> rfl
  | cons x as ih =>
    intro b
    cases b with
    | nil => rfl
    | cons y bs =>
      simp only [wcsicmp, List.map_cons, listCompare, ih bs]

theorem wcsicmp_eq_iff (a b : List Nat) :
    wcsicmp a b = .eq ↔ a.map towlower = b.map towlower := by
  rw [wcsicmp_eq_listCompare]
  exact listCompare_eq_iff _ _

theorem wcsicmp_swap (a b : List Nat) : wcsicmp b a = (wcsicmp a b).swap := by
  rw [wcsicmp_eq_listCompare, wcsicmp_eq_listCompare]
  exact listCompare_swap _ _

theorem wcsicmp_ne_gt_trans (a b c : List Nat)
    (hab : wcsicmp a b ≠ .gt) (hbc : wcsicmp b c ≠ .gt) : wcsicmp a c ≠ .gt := by
  rw [wcsicmp_eq_listCompare] at *
  exact listCompare_ne_gt_trans _ _ _ hab hbc

/-- Case-insensitive equivalence lets one side of a comparison be replaced
by the other. -/
theorem wcsicmp_congr_left (a b c : List Nat) (hab : wcsicmp a b = .eq) :
    wcsicmp a c = wcsicmp b c := by
  rw [wcsicmp_eq_listCompare, wcsicmp_eq_listCompare,
      (wcsicmp_eq_iff a b).mp hab]

/-- The chain of paths the `ShouldDelete` loop visits: the path itself and
every proper ancestor down to (but excluding) the empty path. -/
def iterAncestors (p : List Nat) : List (List Nat) :=
  if hp : p = [] then [] else p :: iterAncestors (upDir p)
termination_by p.length
decreasing_by exact upDir_length_lt p hp

/-! ## Correctness of the binary search on sorted ranges -/

/-- The classic `lower_bound` postcondition, for any strict weak order whose
induced non-strict order is transitive (hypothesis `R1`), on a range whose
elements are pairwise non-decreasing. -/
theorem lowerBoundAux_spec (lt : List Nat → List Nat → Bool)
    (xs : List (List Nat)) (v : List Nat)
    (R1 : ∀ x y z, lt y x = false → lt y z = true → lt x z = true)
    (sorted : ∀ i j, i < j → j < xs.length →
      lt (xs.getD j []) (xs.getD i []) = false) :
    ∀ count first,
      first + count ≤ xs.length →
      (∀ j, j < first → lt (xs.getD j []) v = true) →
      (∀ j, first + count ≤ j → j < xs.length → lt (xs.getD j []) v = false) →
      (∀ j, j < lowerBoundAux lt xs v first count → lt (xs.getD j []) v = true) ∧
      (∀ j, lowerBoundAux lt xs v first count ≤ j → j < xs.length →
        lt (xs.getD j []) v = false) ∧
      lowerBoundAux lt xs v first count ≤ xs.length := by
  intro count
  induction count using Nat.strong_induction_on with
  | _ count ih =>
    intro first hlen hbefore hafter
    unfold lowerBoundAux
    by_cases h0 : count = 0
    · subst h0
      simp only [dif_pos]
      refine ⟨hbefore, ?_, by omega⟩
      intro j hj1 hj2
      exact hafter j (by omega) hj2
    · simp only [h0, dif_neg, not_false_iff]
      have hc2 : count / 2 < count := Nat.div_lt_self (Nat.pos_of_ne_zero h0) (by omega)
      have hmid_lt : first + count / 2 < xs.length := by omega
      by_cases hltmid : lt (xs.getD (first + count / 2) []) v = true
      · rw [if_pos hltmid]
        apply ih (count - count / 2 - 1) (by omega) (first + count / 2 + 1)
          (by omega) ?_ ?_
        · intro j hj
          by_cases hjf : j < first
          · exact hbefore j hjf
          · by_cases hjm : j = first + count / 2
            · subst hjm; exact hltmid
            · have hjlt : j < first + count / 2 := by omega
              have hsort := sorted j (first + count / 2) hjlt hmid_lt
              exact R1 (xs.getD j []) (xs.getD (first + count / 2) []) v hsort hltmid
        · intro j hj1 hj2
          exact hafter j (by omega) hj2
      · rw [if_neg hltmid]
        have hltmid' : lt (xs.getD (first + count / 2) []) v = false :=
          Bool.not_eq_true _ ▸ (by simpa using hltmid)
        apply ih (count / 2) hc2 first (by omega) hbefore ?_
        intro j hj1 hj2
        by_cases hjend : first + count ≤ j
        · exact hafter j hjend hj2
        · by_cases hjm : j = first + count / 2
          · subst hjm; exact hltmid'
          · have hmj : first + count / 2 < j := by omega
            have hsort := sorted (first + count / 2) j hmj hj2
            by_contra hcon
            have hjv : lt (xs.getD j []) v = true := by
              cases hxy : lt (xs.getD j []) v
              · exact absurd hxy hcon
              · rfl
            have := R1 (xs.getD (first + count / 2) []) (xs.getD j []) v hsort hjv
            rw [this] at hltmid'
            cases hltmid'

theorem listLt_R1 (x y z : List Nat) (h1 : listLt y x = false)
    (h2 : listLt y z = true) : listLt x z = true := by
  have h1' : listCompare y x ≠ .lt := by
    rw [listLt] at h1
    exact (ordering_beq_false_iff _ _).mp h1
  have h2' : listCompare y z = .lt := by
    rw [listLt] at h2
    exact (ordering_beq_iff _ _).mp h2
  have hgoal : listCompare x z = .lt := by
    rcases hxy : listCompare x y with _ | _ | _
    · exact listCompare_lt_trans x y z hxy h2'
    · rw [(listCompare_eq_iff x y).mp hxy]
      exact h2'
    · exact absurd (by rw [listCompare_swap x y, hxy]; rfl) h1'
  rw [listLt]
  exact (ordering_beq_iff _ _).mpr hgoal

theorem listLt_irrefl (a : List Nat) : listLt a a = false := by
  have : listCompare a a = .eq := (listCompare_eq_iff a a).mpr rfl
  rw [listLt, this]
  decide

/-- On a sorted deletion set, the `lower_bound`-plus-equality test of
`ShouldDelete` finds `v` exactly when `v` is a member. -/
theorem lowerBound_listLt_found_iff (xs : List (List Nat)) (v : List Nat)
    (sorted : List.Pairwise (fun a b => listLt b a = false) xs) :
    (lowerBound listLt xs v < xs.length ∧
      xs.getD (lowerBound listLt xs v) [] = v) ↔ v ∈ xs := by
  unfold lowerBound
  have hsorted : ∀ i j, i < j → j < xs.length →
      listLt (xs.getD j []) (xs.getD i []) = false := by
    intro i j hij hj
    have hi : i < xs.length := by omega
    rw [List.getD_eq_getElem xs [] hj, List.getD_eq_getElem xs [] hi]
    exact (List.pairwise_iff_getElem.mp sorted) i j hi hj hij
  have hspec := lowerBoundAux_spec listLt xs v listLt_R1 hsorted xs.length 0
    (by omega) (by intro j hj; omega) (by intro j hj1 hj2; omega)
  rcases hspec with ⟨hbef, haft, hle⟩
  constructor
  · rintro ⟨hlt, hget⟩
    rw [← hget, List.getD_eq_getElem xs [] hlt]
    exact List.getElem_mem hlt
  · intro hmem
    rcases List.mem_iff_getElem.mp hmem with ⟨k, hk, hkv⟩
    have hkr : lowerBoundAux listLt xs v 0 xs.length ≤ k := by
      by_contra hcon
      have := hbef k (by omega)
      rw [List.getD_eq_getElem xs [] hk, hkv] at this
      rw [listLt_irrefl v] at this
      cases this
    have hr_lt : lowerBoundAux listLt xs v 0 xs.length < xs.length := by omega
    refine ⟨hr_lt, ?_⟩
    have h1 : listLt (xs.getD (lowerBoundAux listLt xs v 0 xs.length) []) v = false :=
      haft _ (le_refl _) hr_lt
    by_cases hrk : lowerBoundAux listLt xs v 0 xs.length = k
    · rw [hrk, List.getD_eq_getElem xs [] hk, hkv]
    · have hrk' : lowerBoundAux listLt xs v 0 xs.length < k := by omega
      have h2 := hsorted (lowerBoundAux listLt xs v 0 xs.length) k hrk' hk
      rw [List.getD_eq_getElem xs [] hk, hkv] at h2
      have h1' : listCompare (xs.getD (lowerBoundAux listLt xs v 0 xs.length) []) v ≠ .lt := by
        rw [listLt] at h1
        exact (ordering_beq_false_iff _ _).mp h1
      have h2' : listCompare v (xs.getD (lowerBoundAux listLt xs v 0 xs.length) []) ≠ .lt := by
        rw [listLt] at h2
        exact (ordering_beq_false_iff _ _).mp h2
      rw [listCompare_swap _ v] at h2'
      rcases h : listCompare (xs.getD (lowerBoundAux listLt xs v 0 xs.length) []) v
        with _ | _ | _
      · exact absurd h h1'
      · exact (listCompare_eq_iff _ _).mp h
      · rw [h] at h2'
        exact absurd rfl h2'


theorem listLt_false_iff_ne_gt (a b : List Nat) :
    listLt b a = false ↔ listCompare a b ≠ .gt := by
  rw [listLt, ordering_beq_false_iff, listCompare_swap a b]
  rcases listCompare a b with _ | _ | _ <;> simp [Ordering.swap]

/-- The deletion set built by `DeleteFilesW` is sorted: every earlier
element is `operator<`-no-greater than every later one. -/
theorem normalizeDeleteList_sorted (deleteList : List (List Nat)) :
    List.Pairwise (fun a b => listLt b a = false)
      (normalizeDeleteList deleteList) := by
  have htrans : ∀ a b c : List Nat,
      (!(listLt b a)) = true → (!(listLt c b)) = true → (!(listLt c a)) = true := by
    intro a b c h1 h2
    rw [Bool.not_eq_true'] at h1 h2 ⊢
    rw [listLt_false_iff_ne_gt] at h1 h2 ⊢
    exact listCompare_ne_gt_trans a b c h1 h2
  have htotal : ∀ a b : List Nat,
      ((!(listLt b a)) || (!(listLt a b))) = true := by
    intro a b
    rcases listCompare_ne_gt_total a b with h | h
    · rw [← listLt_false_iff_ne_gt] at h
      simp [h]
    · rw [← listLt_false_iff_ne_gt] at h
      simp [h]
  have := List.sorted_mergeSort htrans htotal
    ((deleteList.map normalizeDeletePath))
  unfold normalizeDeleteList
  exact this.imp (by intro a b h; rwa [Bool.not_eq_true'] at h)

/-- The climbing loop of `ShouldDelete` succeeds exactly when some member
of the visited ancestor chain belongs to the (sorted) deletion set. -/
theorem shouldDeleteGo_iff (set : List (List Nat))
    (sorted : List.Pairwise (fun a b => listLt b a = false) set) :
    ∀ (n : Nat) (p : List Nat), p.length ≤ n →
      (shouldDeleteGo set p = true ↔ ∃ q ∈ iterAncestors p, q ∈ set) := by
  intro n
  induction n with
  | zero =>
    intro p hp
    have hpe : p = [] := List.length_eq_zero.mp (by omega)
    subst hpe
    rw [shouldDeleteGo, iterAncestors]
    simp
  | succ n ih =>
    intro p hp
    by_cases hpe : p = []
    · subst hpe
      rw [shouldDeleteGo, iterAncestors]
      simp
    · rw [shouldDeleteGo, iterAncestors]
      simp only [dif_neg hpe]
      by_cases hfound : lowerBound listLt set p < set.length ∧
          set.getD (lowerBound listLt set p) [] = p
      · rw [if_pos hfound]
        have hmem : p ∈ set := (lowerBound_listLt_found_iff set p sorted).mp hfound
        simp only [true_iff]
        exact ⟨p, List.mem_cons_self _ _, hmem⟩
      · rw [if_neg hfound]
        have hnot : p ∉ set := by
          intro hmem
          exact hfound ((lowerBound_listLt_found_iff set p sorted).mpr hmem)
        have hlt : (upDir p).length ≤ n := by
          have := upDir_length_lt p hpe
          omega
        rw [ih (upDir p) hlt]
        constructor
        · rintro ⟨q, hq1, hq2⟩
          exact ⟨q, List.mem_cons_of_mem _ hq1, hq2⟩
        · rintro ⟨q, hq1, hq2⟩
          rcases List.mem_cons.mp hq1 with h | h
          · subst h
            exact absurd hq2 hnot
          · exact ⟨q, h, hq2⟩

/-- `ShouldDelete` tests, against the sorted deletion set, membership of the
upper-cased path or of any of its ancestors. -/
theorem shouldDelete_iff (curr_path : List Nat) (set : List (List Nat))
    (sorted : List.Pairwise (fun a b => listLt b a = false) set) :
    shouldDelete curr_path set = true ↔
      ∃ q ∈ iterAncestors (upperCase curr_path), q ∈ set := by
  unfold shouldDelete
  exact shouldDeleteGo_iff set sorted (upperCase curr_path).length _ (le_refl _)

/-! ## Byte-level frame property of `DeleteIf` -/

theorem pathBytes_length (p : List Nat) : (pathBytes p).length = 2 * p.length := by
  induction p with
  | nil => rfl
  | cons c rest ih =>
    simp only [pathBytes, u16le, List.length_append, List.length_cons, ih,
      List.length_nil]
    omega

theorem serializeHeader_length (h : EntryHeader) :
    (serializeHeader h).length = 28 := by
  simp [serializeHeader, u32le, u64le, u16le]

theorem serializeEntry_length (e : Entry) :
    (serializeEntry e).length = entrySize e := by
  simp only [serializeEntry, entrySize, List.length_append,
    serializeHeader_length, pathBytes_length]

theorem serializeEntry_decomp (e : Entry) :
    serializeEntry e =
      u32le e.header.magic ++ (e.header.flags % 256) :: entryTailBytes e := by
  simp [serializeEntry, serializeHeader, entryTailBytes]

theorem entryTailBytes_setDeleted (e : Entry) :
    entryTailBytes (setDeleted e) = entryTailBytes e := rfl

theorem deleteIfEntry_eq (pred : List Nat → Bool) (e : Entry) :
    deleteIfEntry pred e =
      if e.header.flags &&& kEntryFlagDeleted = 0 ∧ pred e.path = true
      then setDeleted e else e := by
  unfold deleteIfEntry
  by_cases hdel : e.header.flags &&& kEntryFlagDeleted ≠ 0
  · rw [if_pos hdel, if_neg]
    rintro ⟨h1, _⟩
    exact hdel h1
  · rw [if_neg hdel]
    by_cases hpred : pred e.path = true
    · rw [if_pos hpred, if_pos ⟨by omega, hpred⟩]
    · rw [if_neg hpred, if_neg]
      rintro ⟨_, h2⟩
      exact hpred h2

theorem setDeleted_entry_length (e : Entry) :
    (serializeEntry (setDeleted e)).length = (serializeEntry e).length := by
  rw [serializeEntry_decomp, serializeEntry_decomp, entryTailBytes_setDeleted]
  simp [setDeleted]

theorem deleteIfEntry_length (pred : List Nat → Bool) (e : Entry) :
    (serializeEntry (deleteIfEntry pred e)).length = (serializeEntry e).length := by
  rw [deleteIfEntry_eq]
  by_cases h : e.header.flags &&& kEntryFlagDeleted = 0 ∧ pred e.path = true
  · rw [if_pos h, setDeleted_entry_length]
  · rw [if_neg h]

theorem flagsOffsets_shift (pred : List Nat → Bool) (l : List Entry) :
    ∀ base, flagsOffsets pred l base =
      (flagsOffsets pred l 0).map (fun o => o + base) := by
  induction l with
  | nil => intro base; rfl
  | cons e rest ih =>
    intro base
    simp only [flagsOffsets, List.map_append]
    congr 1
    · by_cases hc : e.header.flags &&& kEntryFlagDeleted = 0 ∧ pred e.path = true
      · simp only [if_pos hc, List.map_cons, List.map_nil]
        congr 1
        omega
      · simp [hc]
    · rw [ih (base + entrySize e), ih (0 + entrySize e)]
      rw [List.map_map]
      congr 1
      funext o
      simp only [Function.comp_apply]
      omega

/-- Byte at offset 4 of a serialized entry record: the flags byte. -/
theorem serializeEntry_getD_four (e : Entry) :
    (serializeEntry e).getD 4 0 = e.header.flags % 256 := by
  rw [serializeEntry_decomp]
  rw [List.getD_append_right _ _ _ _ (by simp [u32le])]
  simp [u32le]

theorem serializeEntry_getD_ne_four (pred : List Nat → Bool) (e : Entry)
    (i : Nat) (hi : i ≠ 4) :
    (serializeEntry (deleteIfEntry pred e)).getD i 0 =
      (serializeEntry e).getD i 0 := by
  rw [deleteIfEntry_eq]
  by_cases h : e.header.flags &&& kEntryFlagDeleted = 0 ∧ pred e.path = true
  · rw [if_pos h]
    rw [serializeEntry_decomp, serializeEntry_decomp, entryTailBytes_setDeleted]
    have hm : (setDeleted e).header.magic = e.header.magic := rfl
    rw [hm]
    by_cases hlt : i < 4
    · rw [List.getD_append _ _ _ _ (by simpa [u32le] using hlt),
          List.getD_append _ _ _ _ (by simpa [u32le] using hlt)]
    · have h4 : (u32le e.header.magic).length ≤ i := by simp [u32le]; omega
      rw [List.getD_append_right _ _ _ _ h4, List.getD_append_right _ _ _ _ h4]
      have : i - (u32le e.header.magic).length = (i - 5) + 1 := by
        simp [u32le]; omega
      rw [this, List.getD_cons_succ, List.getD_cons_succ]
  · rw [if_neg h]

theorem mem_map_add_ge (l : List Nat) (sz o : Nat)
    (h : o ∈ l.map (fun x => x + sz)) : sz ≤ o := by
  rcases List.mem_map.mp h with ⟨x, _, hx⟩
  omega

/-- Core frame property of the tombstoning scan, over the serialized entry
stream: lengths agree; at each recorded flags offset the new byte is the
old one with the Deleted bit ORed in (and the old byte had it clear);
every other byte is unchanged. -/
theorem deleteIf_serializeEntries_spec (pred : List Nat → Bool) :
    ∀ entries : List Entry, (∀ e ∈ entries, e.header.flags < 256) →
      (serializeEntries (deleteIf pred entries)).length =
        (serializeEntries entries).length ∧
      (∀ i, i ∈ flagsOffsets pred entries 0 →
        (serializeEntries (deleteIf pred entries)).getD i 0 =
          ((serializeEntries entries).getD i 0) ||| kEntryFlagDeleted ∧
        ((serializeEntries entries).getD i 0) &&& kEntryFlagDeleted = 0) ∧
      (∀ i, i ∉ flagsOffsets pred entries 0 →
        (serializeEntries (deleteIf pred entries)).getD i 0 =
          (serializeEntries entries).getD i 0) := by
  intro entries
  induction entries with
  | nil =>
    intro _
    refine ⟨rfl, ?_, ?_⟩
    · intro i hi
      cases hi
    · intro i _
      rfl
  | cons e rest ih =>
    intro hwf
    have hwf_e : e.header.flags < 256 := hwf e (List.mem_cons_self _ _)
    have hwf_rest : ∀ x ∈ rest, x.header.flags < 256 := by
      intro x hx
      exact hwf x (List.mem_cons_of_mem _ hx)
    rcases ih hwf_rest with ⟨ihlen, ihmem, ihnot⟩
    have hsz : (serializeEntry e).length = entrySize e := serializeEntry_length e
    have hsz' : (serializeEntry (deleteIfEntry pred e)).length = entrySize e := by
      rw [deleteIfEntry_length, hsz]
    have hsz28 : 28 ≤ entrySize e := by unfold entrySize; omega
    have hoffs : flagsOffsets pred (e :: rest) 0 =
        (if e.header.flags &&& kEntryFlagDeleted = 0 ∧ pred e.path = true
         then [0 + 4] else []) ++
          (flagsOffsets pred rest 0).map (fun o => o + entrySize e) := by
      rw [flagsOffsets, flagsOffsets_shift pred rest (0 + entrySize e)]
      simp only [Nat.zero_add]
    have hser : serializeEntries (deleteIf pred (e :: rest)) =
        serializeEntry (deleteIfEntry pred e) ++ serializeEntries (deleteIf pred rest) := rfl
    have hser' : serializeEntries (e :: rest) =
        serializeEntry e ++ serializeEntries rest := rfl
    refine ⟨?_, ?_, ?_⟩
    · rw [hser, hser']
      simp only [List.length_append, ihlen, hsz, hsz']
    · intro i hi
      rw [hoffs] at hi
      rw [hser, hser']
      rcases List.mem_append.mp hi with hi4 | himap
      · have hcond : e.header.flags &&& kEntryFlagDeleted = 0 ∧ pred e.path = true := by
          by_contra hc
          rw [if_neg hc] at hi4
          cases hi4
        have hi4' : i = 4 := by
          rw [if_pos hcond] at hi4
          simpa using hi4
        subst hi4'
        rw [List.getD_append _ _ _ _ (by omega), List.getD_append _ _ _ _ (by omega)]
        have hleft : (serializeEntry (deleteIfEntry pred e)).getD 4 0 =
            (e.header.flags ||| kEntryFlagDeleted) % 256 := by
          rw [deleteIfEntry_eq, if_pos hcond, serializeEntry_getD_four]
          rfl
        have hor_lt : e.header.flags ||| kEntryFlagDeleted < 256 := by
          have h256 : (256 : Nat) = 2 ^ 8 := by norm_num
          rw [kEntryFlagDeleted, h256]
          exact Nat.or_lt_two_pow (h256 ▸ hwf_e) (by norm_num)
        rw [hleft, serializeEntry_getD_four, Nat.mod_eq_of_lt hor_lt,
            Nat.mod_eq_of_lt hwf_e]
        exact ⟨rfl, hcond.1⟩
      · have hgesz : entrySize e ≤ i := mem_map_add_ge _ _ _ himap
        rw [List.getD_append_right _ _ _ _ (by omega),
            List.getD_append_right _ _ _ _ (by omega), hsz, hsz']
        have : i - entrySize e ∈ flagsOffsets pred rest 0 := by
          rcases List.mem_map.mp himap with ⟨x, hx1, hx2⟩
          have : i - entrySize e = x := by omega
          rwa [this]
        exact ihmem _ this
    · intro i hi
      rw [hoffs] at hi
      rw [hser, hser']
      by_cases hlt : i < entrySize e
      · rw [List.getD_append _ _ _ _ (by omega), List.getD_append _ _ _ _ (by omega)]
        by_cases hi4 : i = 4
        · subst hi4
          have hcond : ¬ (e.header.flags &&& kEntryFlagDeleted = 0 ∧ pred e.path = true) := by
            intro hc
            apply hi
            rw [if_pos hc]
            simp
          rw [deleteIfEntry_eq, if_neg hcond]
        · exact serializeEntry_getD_ne_four pred e i hi4
      · rw [List.getD_append_right _ _ _ _ (by omega),
            List.getD_append_right _ _ _ _ (by omega), hsz, hsz']
        apply ihnot
        intro hmem
        apply hi
        apply List.mem_append.mpr
        right
        apply List.mem_map.mpr
        exact ⟨i - entrySize e, hmem, by omega⟩

/-! ## Decoding round-trips for serialized entries -/

theorem decodeHeader_serializeHeader (h : EntryHeader) (tail : List Nat)
    (hm : h.magic < 4294967296) (hf : h.flags < 256) (ha : h.attributes < 256)
    (ht : h.time < 4294967296) (hp : h.pack_size < 18446744073709551616)
    (hu : h.unp_size < 18446744073709551616) (hl : h.path_len < 65536) :
    decodeHeader (serializeHeader h ++ tail) = h := by
  obtain ⟨m, f, a, t, ps, us, pl⟩ := h
  simp only [serializeHeader, u32le, u64le, u16le, List.cons_append,
    List.nil_append] at *
  simp only [decodeHeader, leNat]
  simp only [List.take_succ_cons, List.take_zero, List.drop_succ_cons,
    List.drop_zero, List.getD_cons_succ, List.getD_cons_zero, List.foldr_cons,
    List.foldr_nil]
  simp only [EntryHeader.mk.injEq] at *
  refine ⟨?_, ?_, ?_, ?_, ?_, ?_, ?_⟩ <;> omega

theorem decodeU16Pairs_pathBytes (p : List Nat) (h : ∀ c ∈ p, c < 65536) :
    decodeU16Pairs (pathBytes p) = p := by
  induction p with
  | nil => rfl
  | cons c rest ih =>
    have hc : c < 65536 := h c (List.mem_cons_self _ _)
    have hrest : ∀ x ∈ rest, x < 65536 := fun x hx => h x (List.mem_cons_of_mem _ hx)
    simp only [pathBytes, u16le, List.cons_append, List.nil_append,
      decodeU16Pairs, List.cons.injEq]
    refine ⟨by omega, ?_⟩
    simpa using ih hrest

theorem readEntryHeader_serializeEntry (e : Entry) (rest : List Nat)
    (hwf : WFEntry e) :
    readEntryHeader (serializeEntry e ++ rest) =
      .ok (some (e.header, e.path, e.payload ++ rest)) := by
  obtain ⟨hmag, hf, ha, ht, hps, hus, hpl, hpos, hmax, hunits, hpay⟩ := hwf
  have hm32 : e.header.magic < 4294967296 := by rw [hmag]; norm_num [kEntryMagic]
  have hl16 : e.header.path_len < 65536 := by omega
  have hselen : (serializeEntry e).length = entrySize e := serializeEntry_length e
  have hlen : ¬ ((serializeEntry e ++ rest).length < 28) := by
    simp only [List.length_append, hselen, entrySize]
    omega
  unfold readEntryHeader
  rw [if_neg hlen]
  have hassoc : serializeEntry e ++ rest =
      serializeHeader e.header ++ (pathBytes e.path ++ e.payload ++ rest) := by
    simp [serializeEntry]
  rw [hassoc]
  rw [decodeHeader_serializeHeader e.header _ hm32 hf ha ht hps hus hl16]
  rw [if_neg (by rw [hmag]; simp)]
  rw [if_neg (by omega)]
  rw [if_neg (by unfold kMaxFileNameLen; omega)]
  have hdrop : (serializeHeader e.header ++ (pathBytes e.path ++ e.payload ++ rest)).drop 28 =
      pathBytes e.path ++ e.payload ++ rest := by
    have h28 : (28 : Nat) = (serializeHeader e.header).length :=
      (serializeHeader_length e.header).symm
    rw [h28, List.drop_left]
  rw [hdrop]
  have hpblen : (pathBytes e.path).length = 2 * e.header.path_len := by
    rw [pathBytes_length, hpl]
  rw [if_neg (by simp only [List.length_append, hpblen]; omega)]
  have htake : (pathBytes e.path ++ e.payload ++ rest).take (2 * e.header.path_len) =
      pathBytes e.path := by
    rw [List.append_assoc, ← hpblen, List.take_left]
  have hdrop2 : (pathBytes e.path ++ e.payload ++ rest).drop (2 * e.header.path_len) =
      e.payload ++ rest := by
    rw [List.append_assoc, ← hpblen, List.drop_left]
  rw [htake, hdrop2, decodeU16Pairs_pathBytes e.path hunits]

/-! ## Properties of the live-entry scan -/

theorem nextLive_not_deleted : ∀ (n : Nat) (bs : List Nat), bs.length ≤ n →
    ∀ h p, nextLive bs = .ok (some (h, p)) →
    h.flags &&& kEntryFlagDeleted = 0 := by
  intro n
  induction n with
  | zero =>
    intro bs hbs h p hnl
    have hbs0 : bs = [] := List.length_eq_zero.mp (by omega)
    subst hbs0
    rw [nextLive.eq_def] at hnl
    simp only [readEntryHeader] at hnl
    cases hnl
  | succ n ih =>
    intro bs hbs h p hnl
    rw [nextLive.eq_def] at hnl
    split at hnl
    · cases hnl
    · cases hnl
    · rename_i h' p' rest heq
      split at hnl
      · rename_i hdel
        have hlt : rest.length < bs.length := readEntryHeader_rest_lt bs h' p' rest heq
        exact ih (rest.drop h'.pack_size) (by simp only [List.length_drop]; omega) h p hnl
      · rename_i hdel
        cases hnl
        omega

theorem nextLive_skip (e : Entry) (rest : List Nat) (hwf : WFEntry e)
    (hdel : e.header.flags &&& kEntryFlagDeleted ≠ 0) :
    nextLive (serializeEntry e ++ rest) = nextLive rest := by
  have hpay : e.payload.length = e.header.pack_size := hwf.2.2.2.2.2.2.2.2.2.2
  have hrt := readEntryHeader_serializeEntry e rest hwf
  rw [nextLive.eq_def]
  split
  · rename_i err heq
    rw [hrt] at heq
    cases heq
  · rename_i heq
    rw [hrt] at heq
    cases heq
  · rename_i h' p' rest' heq
    rw [hrt] at heq
    simp only [Except.ok.injEq, Option.some.injEq, Prod.mk.injEq] at heq
    obtain ⟨h1, h2, h3⟩ := heq
    subst h1
    subst h3
    rw [if_pos hdel, ← hpay, List.drop_left]

theorem or_one_and_one (a : Nat) : (a ||| 1) &&& 1 = 1 := by
  simp [Nat.and_one_is_mod, Nat.or_mod_two_eq_one]

theorem deleteIf_getD (pred : List Nat → Bool) (entries : List Entry) (k : Nat)
    (hk : k < entries.length) :
    (deleteIf pred entries).getD k default =
      deleteIfEntry pred (entries.getD k default) := by
  unfold deleteIf
  rw [List.getD_eq_getElem _ _ (by simpa using hk), List.getD_eq_getElem _ _ hk,
    List.getElem_map]

/-! ## Claim theorems -/

/-- C3: an erase pass leaves the archive bytes unchanged except that the
one-byte flags field at offset 4 of each live entry record matched by the
deletion set gets the Deleted bit ORed in; the file length is unchanged and
every other byte (payloads, paths, remaining header fields) is identical. -/
theorem c3_erase_rewrites_only_matched_flags_bytes
    (paths_to_delete : List (List Nat)) (entries : List Entry)
    (hwf : ∀ e ∈ entries, e.header.flags < 256) :
    (serializeArchive (deleteIf (fun p => shouldDelete p paths_to_delete) entries)).length =
      (serializeArchive entries).length ∧
    (∀ i, i ∈ flagsOffsets (fun p => shouldDelete p paths_to_delete) entries 8 →
      (serializeArchive (deleteIf (fun p => shouldDelete p paths_to_delete) entries)).getD i 0 =
        ((serializeArchive entries).getD i 0) ||| kEntryFlagDeleted ∧
      ((serializeArchive entries).getD i 0) &&& kEntryFlagDeleted = 0 ∧
      (serializeArchive (deleteIf (fun p => shouldDelete p paths_to_delete) entries)).getD i 0 ≠
        (serializeArchive entries).getD i 0) ∧
    (∀ i, i ∉ flagsOffsets (fun p => shouldDelete p paths_to_delete) entries 8 →
      (serializeArchive (deleteIf (fun p => shouldDelete p paths_to_delete) entries)).getD i 0 =
        (serializeArchive entries).getD i 0) := by
  rcases deleteIf_serializeEntries_spec (fun p => shouldDelete p paths_to_delete)
    entries hwf with ⟨hlen, hmem, hnot⟩
  have hhdr : (kFileHeaderBytes : List Nat).length = 8 := rfl
  have hshift := flagsOffsets_shift (fun p => shouldDelete p paths_to_delete) entries 8
  refine ⟨?_, ?_, ?_⟩
  · simp only [serializeArchive, List.length_append, hlen]
  · intro i hi
    rw [hshift] at hi
    rcases List.mem_map.mp hi with ⟨o, ho, hoi⟩
    have hi8 : 8 ≤ i := by omega
    unfold serializeArchive
    rw [List.getD_append_right _ _ _ _ (by omega),
        List.getD_append_right _ _ _ _ (by omega), hhdr]
    have hio : i - 8 = o := by omega
    rw [hio]
    rcases hmem o ho with ⟨h1, h2⟩
    refine ⟨h1, h2, ?_⟩
    rw [h1]
    intro hcon
    have hb := or_one_and_one ((serializeEntries entries).getD o 0)
    rw [show kEntryFlagDeleted = 1 from rfl] at hcon h2
    rw [hcon] at hb
    omega
  · intro i hi
    unfold serializeArchive
    by_cases hi8 : i < 8
    · rw [List.getD_append _ _ _ _ (by omega), List.getD_append _ _ _ _ (by omega)]
    · rw [List.getD_append_right _ _ _ _ (by omega),
          List.getD_append_right _ _ _ _ (by omega), hhdr]
      apply hnot
      intro hmem'
      apply hi
      rw [hshift]
      exact List.mem_map.mpr ⟨i - 8, hmem', by omega⟩

/-- C4: the header-reading loop skips tombstoned entries — the entry it
returns never has the Deleted flag set, and a well-formed deleted record at
the cursor is seeked past entirely — end of archive is signalled as
`E_END_ARCHIVE` rather than an error, and the returned entry fails with
`E_BAD_ARCHIVE` when it is a directory with a nonzero size or an
uncompressed entry whose sizes disagree. -/
theorem c4_read_header_skips_deleted_and_validates :
    (∀ bs : List Nat, ∀ h p, nextLive bs = .ok (some (h, p)) →
      h.flags &&& kEntryFlagDeleted = 0) ∧
    (∀ bs : List Nat, nextLive bs = .ok none →
      readHeaderExW bs = .error E_END_ARCHIVE) ∧
    (∀ bs : List Nat, ∀ h p, nextLive bs = .ok (some (h, p)) →
      ((h.attributes &&& FILE_ATTR_DIRECTORY ≠ 0 ∧ (0 < h.pack_size ∨ 0 < h.unp_size)) →
        readHeaderExW bs = .error E_BAD_ARCHIVE) ∧
      ((h.flags &&& kEntryFlagCompressed = 0 ∧ h.unp_size ≠ h.pack_size) →
        readHeaderExW bs = .error E_BAD_ARCHIVE) ∧
      (¬ (h.attributes &&& FILE_ATTR_DIRECTORY ≠ 0 ∧ (0 < h.pack_size ∨ 0 < h.unp_size)) →
        ¬ (h.flags &&& kEntryFlagCompressed = 0 ∧ h.unp_size ≠ h.pack_size) →
        readHeaderExW bs = .ok (h, p))) ∧
    (∀ (e : Entry) (rest : List Nat), WFEntry e →
      e.header.flags &&& kEntryFlagDeleted ≠ 0 →
      nextLive (serializeEntry e ++ rest) = nextLive rest) := by
  refine ⟨?_, ?_, ?_, nextLive_skip⟩
  · intro bs h p hnl
    exact nextLive_not_deleted bs.length bs (le_refl _) h p hnl
  · intro bs hnl
    unfold readHeaderExW
    simp only [hnl]
  · intro bs h p hnl
    refine ⟨?_, ?_, ?_⟩
    · intro hdir
      unfold readHeaderExW
      simp only [hnl]
      rw [if_pos hdir]
    · intro hcomp
      unfold readHeaderExW
      simp only [hnl]
      by_cases hdir : h.attributes &&& FILE_ATTR_DIRECTORY ≠ 0 ∧
          (0 < h.pack_size ∨ 0 < h.unp_size)
      · rw [if_pos hdir]
      · rw [if_neg hdir, if_pos hcomp]
    · intro hdir hcomp
      unfold readHeaderExW
      simp only [hnl]
      rw [if_neg hdir, if_neg hcomp]

/-- C5 counterexample: four zero bytes are available and the magic field
(zero) differs from the entry magic, yet the decoder signals end of archive
(`fread` of one 28-byte element returns nothing) instead of failing with
`E_BAD_ARCHIVE` as the claim requires. -/
theorem c5_counterexample_short_tail_is_end_of_archive :
    readEntryHeader [0, 0, 0, 0] = .ok none ∧
    ([0, 0, 0, 0] : List Nat) ≠ [] ∧
    leNat ([0, 0, 0, 0].take 4) ≠ kEntryMagic ∧
    readEntryHeader [0, 0, 0, 0] ≠ .error E_BAD_ARCHIVE := by
  refine ⟨rfl, by decide, by decide, by decide⟩

/-- C5 (amended): with zero bytes available — and more generally with fewer
than a full 28-byte header available — the decoder signals end of archive,
not an error; when a full header is available it fails with `E_BAD_ARCHIVE`
on a magic mismatch or a zero declared path length, and with `E_SMALL_BUF`
when the declared path length exceeds 1023 code units. -/
theorem c5_decoder_error_classification (bs : List Nat) :
    (bs.length = 0 → readEntryHeader bs = .ok none) ∧
    (bs.length < 28 → readEntryHeader bs = .ok none) ∧
    (28 ≤ bs.length → (decodeHeader bs).magic ≠ kEntryMagic →
      readEntryHeader bs = .error E_BAD_ARCHIVE) ∧
    (28 ≤ bs.length → (decodeHeader bs).magic = kEntryMagic →
      (decodeHeader bs).path_len = 0 →
      readEntryHeader bs = .error E_BAD_ARCHIVE) ∧
    (28 ≤ bs.length → (decodeHeader bs).magic = kEntryMagic →
      1023 < (decodeHeader bs).path_len →
      readEntryHeader bs = .error E_SMALL_BUF) := by
  refine ⟨?_, ?_, ?_, ?_, ?_⟩
  · intro h0
    unfold readEntryHeader
    rw [if_pos (by omega)]
  · intro h28
    unfold readEntryHeader
    rw [if_pos h28]
  · intro h28 hmag
    unfold readEntryHeader
    rw [if_neg (by omega), if_pos hmag]
  · intro h28 hmag hlen
    unfold readEntryHeader
    rw [if_neg (by omega), if_neg (by simp [hmag]), if_pos hlen]
  · intro h28 hmag hlen
    unfold readEntryHeader
    rw [if_neg (by omega), if_neg (by simp [hmag]), if_neg (by omega),
        if_pos (by unfold kMaxFileNameLen; omega)]

/-- C6: a decode-loop iteration that neither refills the input buffer nor
produces output fails with `E_BAD_ARCHIVE` (no infinite loop on corrupt
data); reaching stream end with a running total different from the entry's
original size fails with `E_BAD_ARCHIVE`; and zlib error codes map to
`E_NO_MEMORY` (memory error), `E_BAD_ARCHIVE` (stream error) or
`E_BAD_DATA` (anything else), the loop failing with exactly that code. -/
theorem c6_unpack_stall_size_check_and_error_mapping :
    (∀ (dst : Nat) (s : InflateStep) (rest : List InflateStep)
        (src_left avail_in total : Nat),
      ¬ (avail_in = 0 ∧ 0 < src_left) → s.zres = Z_OK → s.produced = 0 →
      unpackLoop dst (s :: rest) src_left avail_in total = .error E_BAD_ARCHIVE) ∧
    (∀ (dst : Nat) (s : InflateStep) (rest : List InflateStep)
        (src_left avail_in total : Nat),
      s.zres = Z_STREAM_END →
      total + (kBufSize - (kBufSize - s.produced)) ≠ dst →
      unpackLoop dst (s :: rest) src_left avail_in total = .error E_BAD_ARCHIVE) ∧
    (ZlibResultToWcxException Z_MEM_ERROR = some E_NO_MEMORY ∧
     ZlibResultToWcxException Z_STREAM_ERROR = some E_BAD_ARCHIVE ∧
     (∀ z : Int, z ≠ Z_OK → z ≠ Z_MEM_ERROR → z ≠ Z_STREAM_ERROR →
       ZlibResultToWcxException z = some E_BAD_DATA)) ∧
    (∀ (dst : Nat) (s : InflateStep) (rest : List InflateStep)
        (src_left avail_in total : Nat) (e : Nat),
      s.zres ≠ Z_OK → s.zres ≠ Z_STREAM_END →
      ZlibResultToWcxException s.zres = some e →
      unpackLoop dst (s :: rest) src_left avail_in total = .error e) := by
  refine ⟨?_, ?_, ⟨rfl, rfl, ?_⟩, ?_⟩
  · intro dst s rest src_left avail_in total hnorefill hok hprod
    unfold unpackLoop
    rw [if_neg (by rw [hok]; intro hc; exact hc.1 rfl)]
    have hwrote : ¬ (kBufSize - s.produced < kBufSize) := by
      rw [hprod]
      omega
    rw [if_neg (by rw [hok]; unfold Z_OK Z_STREAM_END; omega)]
    rw [if_pos (by
      intro hc
      rcases hc with hc | hc
      · exact hnorefill hc
      · exact hwrote hc)]
  · intro dst s rest src_left avail_in total hend htot
    unfold unpackLoop
    rw [if_neg (by rw [hend]; intro hc; exact hc.2 rfl)]
    rw [if_pos hend]
    rw [if_neg ?_]
    by_cases hwrote : kBufSize - s.produced < kBufSize
    · rw [if_pos hwrote]
      intro hc
      apply htot
      omega
    · rw [if_neg hwrote]
      intro hc
      apply htot
      have : kBufSize - (kBufSize - s.produced) = 0 := by omega
      omega
  · intro z h0 hmem hstream
    unfold ZlibResultToWcxException
    rw [if_neg h0, if_neg hmem, if_neg hstream]
  · intro dst s rest src_left avail_in total e h0 h1 hmap
    unfold unpackLoop
    rw [if_pos ⟨h0, h1⟩, hmap]

/-- C9: a packed file's payload is deflate-compressed, with the Compressed
flag set, exactly when compression is enabled and the original size is at
least the 16-byte threshold; otherwise the payload is stored verbatim with
packed size equal to original size.  A 15-byte file is stored raw, a
16-byte file is compressed, whatever the compressed size turns out to be. -/
theorem c9_compression_threshold_policy (deflate : List Nat → List Nat)
    (archive_path src : List Nat) :
    (((packFileEntry deflate archive_path src).header.flags &&&
        kEntryFlagCompressed ≠ 0) ↔
      (kEnableCompression = true ∧ kMinFileSizeForCompression ≤ src.length)) ∧
    (EnableCompressionForFile src.length = false →
      (packFileEntry deflate archive_path src).payload = src ∧
      (packFileEntry deflate archive_path src).header.pack_size = src.length ∧
      (packFileEntry deflate archive_path src).header.pack_size =
        (packFileEntry deflate archive_path src).header.unp_size) ∧
    (EnableCompressionForFile src.length = true →
      (packFileEntry deflate archive_path src).payload = deflate src ∧
      (packFileEntry deflate archive_path src).header.pack_size =
        (deflate src).length ∧
      (packFileEntry deflate archive_path src).header.flags = kEntryFlagCompressed) ∧
    (EnableCompressionForFile 15 = false ∧ EnableCompressionForFile 16 = true) := by
  refine ⟨?_, ?_, ?_, by decide, by decide⟩
  · by_cases hcomp : EnableCompressionForFile src.length = true
    · simp only [packFileEntry, hcomp, if_true]
      constructor
      · intro _
        have := hcomp
        unfold EnableCompressionForFile at this
        rcases Bool.and_eq_true _ _ |>.mp this with ⟨h1, h2⟩
        exact ⟨h1, by simpa using h2⟩
      · intro _
        decide
    · have hcomp' : EnableCompressionForFile src.length = false := by
        cases h : EnableCompressionForFile src.length
        · rfl
        · exact absurd h hcomp
      simp only [packFileEntry, hcomp', Bool.false_eq_true, if_false]
      constructor
      · intro hflag
        exact absurd (by decide : (0 : Nat) &&& kEntryFlagCompressed = 0) hflag
      · intro hand
        exfalso
        apply hcomp
        unfold EnableCompressionForFile
        rw [hand.1]
        simp only [Bool.true_and, decide_eq_true_eq]
        exact hand.2
  · intro hcomp
    simp only [packFileEntry, hcomp, Bool.false_eq_true, if_false, false_and]
    exact ⟨trivial, trivial, trivial⟩
  · intro hcomp
    simp only [packFileEntry, hcomp, if_true, true_and]
    refine ⟨?_, trivial⟩
    by_cases hne : (deflate src).length ≠ src.length
    · rw [if_pos hne]
    · rw [if_neg hne]
      omega

/-- C10: an erase invocation with an empty deletion list returns success
without opening, reading, validating or mutating the archive — it succeeds
even when the file cannot be opened (`none`) or its header is not the
archive magic. -/
theorem c10_empty_delete_list_is_noop (file : Option DiskFile) :
    deleteFilesW file [] = .ok (0, file) := by
  have hnorm : normalizeDeleteList [] = [] := by
    unfold normalizeDeleteList
    simp
  unfold deleteFilesW
  rw [hnorm]
  rfl

/-- C7: a non-empty erase operation succeeds on a valid archive, and a live
entry ends up tombstoned exactly when its upper-cased path, or one of the
ancestors obtained by repeatedly stripping the last path component, belongs
to the normalized (wildcard- and slash-stripped, upper-cased) deletion
set.  In particular erasing a directory path tombstones every entry nested
under it. -/
theorem c7_erase_matches_path_or_ancestor (f : DiskFile)
    (deleteList : List (List Nat)) (k : Nat)
    (hne : normalizeDeleteList deleteList ≠ [])
    (hhdr : f.header = kFileHeaderBytes)
    (hk : k < f.entries.length)
    (hlive : (f.entries.getD k default).header.flags &&& kEntryFlagDeleted = 0) :
    ∃ result : DiskFile,
      deleteFilesW (some f) deleteList = .ok (0, some result) ∧
      result.entries.length = f.entries.length ∧
      ((result.entries.getD k default).header.flags &&& kEntryFlagDeleted ≠ 0 ↔
        ∃ q ∈ iterAncestors (upperCase (f.entries.getD k default).path),
          q ∈ normalizeDeleteList deleteList) := by
  refine ⟨{ header := f.header,
            entries := deleteIf
              (fun p => shouldDelete p (normalizeDeleteList deleteList)) f.entries },
          ?_, ?_, ?_⟩
  · unfold deleteFilesW
    rw [if_neg (by simpa [List.isEmpty_iff] using hne)]
    dsimp only
    rw [if_pos hhdr]
  · simp [deleteIf]
  · have hgetd := deleteIf_getD
      (fun p => shouldDelete p (normalizeDeleteList deleteList)) f.entries k hk
    simp only [hgetd]
    rw [deleteIfEntry_eq]
    rw [← shouldDelete_iff _ _ (normalizeDeleteList_sorted deleteList)]
    by_cases hsd : shouldDelete (f.entries.getD k default).path
        (normalizeDeleteList deleteList) = true
    · rw [if_pos ⟨hlive, hsd⟩]
      simp only [setDeleted, hsd, iff_true]
      rw [show kEntryFlagDeleted = 1 from rfl]
      rw [or_one_and_one]
      omega
    · rw [if_neg (by intro hc; exact hsd hc.2)]
      simp only [hlive, hsd]
      constructor
      · intro hc
        exact absurd rfl hc
      · intro hc
        exact Bool.noConfusion hc

/-- Flatten-mode pack input `["A\\b.txt", "B\\a.txt"]` as UTF-16 code
units — two files from different directories, distinct bare names. -/
def cxAddList : List (List Nat) :=
  [[65, 92, 98, 46, 116, 120, 116], [66, 92, 97, 46, 116, 120, 116]]

/-- A live archive entry whose in-archive path is `"a.txt"`. -/
def cxEntry : Entry :=
  { header := { magic := kEntryMagic, flags := 0, attributes := 32, time := 0,
                pack_size := 3, unp_size := 3, path_len := 5 },
    path := [97, 46, 116, 120, 116],
    payload := [1, 2, 3] }

theorem cx_packCandidates_eval : packCandidates false cxAddList =
    [[65, 92, 98, 46, 116, 120, 116], [66, 92, 97, 46, 116, 120, 116]] := by
  simp [packCandidates, cxAddList, removeFileNameDuplicates, buildDupState,
    mapFind, extractFileName, findLastSlash, findLastSlashAux, isSlash,
    applyRemovals, swapRemove, stripTrailingSlash, List.mergeSort,
    List.splitInTwo, List.splitAt, List.splitAt.go, List.merge,
    stricmpLt, wcsicmp, towlower]
  decide

/-- C2 counterexample: packing `["A\\b.txt", "B\\a.txt"]` in flatten mode
leaves the surviving candidate list sorted by relative path, but the
corresponding in-archive paths come out as `["b.txt", "a.txt"]`, which is
not sorted case-insensitively — the claim fails in flatten mode. -/
theorem c2_counterexample_flatten_unsorted_archive_paths :
    packCandidates false cxAddList =
      [[65, 92, 98, 46, 116, 120, 116], [66, 92, 97, 46, 116, 120, 116]] ∧
    archivePaths false [] (packCandidates false cxAddList) =
      [[98, 46, 116, 120, 116], [97, 46, 116, 120, 116]] ∧
    ¬ List.Pairwise (fun a b => stricmpLt b a = false)
        (archivePaths false [] (packCandidates false cxAddList)) := by
  have h1 := cx_packCandidates_eval
  refine ⟨h1, ?_, ?_⟩
  · rw [h1]
    decide
  · rw [h1]
    decide

/-- C1 (code bug): in a flatten-mode pack of `["A\\b.txt", "B\\a.txt"]`
into an archive holding a live entry `"a.txt"`, the entry's path equals an
incoming in-archive path case-insensitively, yet the tombstoning pass
leaves it live: `lower_bound` is run over `["b.txt", "a.txt"]`, which is
not sorted, so the probe misses.  The pack then appends a second live
`"a.txt"`, violating the supersede invariant the code aims for. -/
theorem c1_flatten_supersede_missed :
    ((packFilesTombstonePhase false [] cxAddList [cxEntry]).getD 0
        default).header.flags &&& kEntryFlagDeleted = 0 ∧
    (archivePaths false [] (packCandidates false cxAddList)).any
      (fun ap => wcsicmp cxEntry.path ap == .eq) = true ∧
    cxEntry.header.flags &&& kEntryFlagDeleted = 0 := by
  have h1 := cx_packCandidates_eval
  refine ⟨?_, ?_, by decide⟩
  · unfold packFilesTombstonePhase
    rw [h1]
    have hap : archivePaths false []
        [[65, 92, 98, 46, 116, 120, 116], [66, 92, 97, 46, 116, 120, 116]] =
        [[98, 46, 116, 120, 116], [97, 46, 116, 120, 116]] := by decide
    rw [hap]
    have hlb : lowerBound stricmpLt
        [[98, 46, 116, 120, 116], [97, 46, 116, 120, 116]]
        [97, 46, 116, 120, 116] = 0 := by
      rw [lowerBound, lowerBoundAux, dif_neg (by decide), if_neg (by decide),
        lowerBoundAux, dif_neg (by decide), if_neg (by decide),
        lowerBoundAux, dif_pos (by decide)]
    have hpred : packPred [[98, 46, 116, 120, 116], [97, 46, 116, 120, 116]]
        [97, 46, 116, 120, 116] = false := by
      simp only [packPred, hlb]
      decide
    simp [deleteIf, deleteIfEntry, cxEntry, hpred]
  · rw [h1]
    decide

theorem stricmpLt_false_iff_ne_gt (a b : List Nat) :
    stricmpLt b a = false ↔ wcsicmp a b ≠ .gt := by
  rw [stricmpLt, ordering_beq_false_iff, wcsicmp_swap a b]
  rcases wcsicmp a b with _ | _ | _ <;> simp [Ordering.swap]

theorem wcsicmp_append_left (P a b : List Nat) :
    wcsicmp (P ++ a) (P ++ b) = wcsicmp a b := by
  induction P with
  | nil => rfl
  | cons c rest ih =>
    simp only [List.cons_append, wcsicmp]
    rw [if_neg (by omega), if_neg (by omega)]
    exact ih

theorem combinePath_eq_of_ne_nil (sub x : List Nat) (hx : x ≠ []) :
    combinePath sub x =
      (if sub ≠ [] ∧ sub.getLast? ≠ some 92 ∧ sub.getLast? ≠ some 47
       then sub ++ [92] else sub) ++ x := by
  unfold combinePath
  by_cases h : sub ≠ [] ∧ sub.getLast? ≠ some 92 ∧ sub.getLast? ≠ some 47
  · rw [if_pos ⟨h.1, hx, h.2.1, h.2.2⟩, if_pos h]
  · rw [if_neg (by intro hc; exact h ⟨hc.1, hc.2.2.1, hc.2.2.2⟩), if_neg h]

/-- C2 (amended): the surviving candidate list is sorted case-insensitively
by candidate relative path in both modes; in structure-preserving mode
(`save_paths = true`, nonempty candidates) it is thereby also sorted by
eventual in-archive path, the paths sharing the fixed `subPath` prefix.
In flatten mode the in-archive path order can differ (see the
counterexample). -/
theorem c2_candidates_sorted_by_relative_path :
    (∀ (save_paths : Bool) (addList : List (List Nat)),
      List.Pairwise (fun a b => stricmpLt b a = false)
        (packCandidates save_paths addList)) ∧
    (∀ (subPath : List Nat) (addList : List (List Nat)),
      (∀ r ∈ packCandidates true addList, r ≠ []) →
      List.Pairwise (fun a b => stricmpLt b a = false)
        (archivePaths true subPath (packCandidates true addList))) := by
  have htrans : ∀ a b c : List Nat,
      (!(stricmpLt b a)) = true → (!(stricmpLt c b)) = true →
      (!(stricmpLt c a)) = true := by
    intro a b c h1 h2
    rw [Bool.not_eq_true'] at h1 h2 ⊢
    rw [stricmpLt_false_iff_ne_gt] at h1 h2 ⊢
    exact wcsicmp_ne_gt_trans a b c h1 h2
  have htotal : ∀ a b : List Nat,
      ((!(stricmpLt b a)) || (!(stricmpLt a b))) = true := by
    intro a b
    rcases h : wcsicmp a b with _ | _ | _
    · have : stricmpLt b a = false := by
        rw [stricmpLt_false_iff_ne_gt, h]
        intro hc
        cases hc
      simp [this]
    · have : stricmpLt b a = false := by
        rw [stricmpLt_false_iff_ne_gt, h]
        intro hc
        cases hc
      simp [this]
    · have : stricmpLt a b = false := by
        rw [stricmpLt_false_iff_ne_gt, wcsicmp_swap a b, h]
        intro hc
        cases hc
      simp [this]
  have hsorted : ∀ (save_paths : Bool) (addList : List (List Nat)),
      List.Pairwise (fun a b => stricmpLt b a = false)
        (packCandidates save_paths addList) := by
    intro save_paths addList
    unfold packCandidates
    exact (List.sorted_mergeSort htrans htotal _).imp
      (by intro a b h; rwa [Bool.not_eq_true'] at h)
  refine ⟨hsorted, ?_⟩
  intro subPath addList hne
  unfold archivePaths
  rw [List.pairwise_map]
  have := hsorted true addList
  refine this.imp_of_mem ?_
  intro a b ha hb hab
  simp only [if_pos rfl, if_true]
  rw [combinePath_eq_of_ne_nil subPath a (hne a ha),
      combinePath_eq_of_ne_nil subPath b (hne b hb)]
  rw [stricmpLt_false_iff_ne_gt] at hab ⊢
  rwa [wcsicmp_append_left]

/-! ## `RemoveFileNameDuplicates` removes exactly the superseded paths -/

/-- Keep the elements of `l` whose absolute position (starting at `base`)
is not selected by `mem` — the positions the removal loop deletes. -/
def omitIdxs (l : List (List Nat)) (mem : Nat → Bool) (base : Nat) :
    List (List Nat) :=
  match l with
  | [] => []
  | p :: rest => (if mem base then [] else [p]) ++ omitIdxs rest mem (base + 1)

theorem swapRemove_length (l : List (List Nat)) (i : Nat) (hi : i < l.length) :
    (swapRemove l i).length = l.length - 1 := by
  unfold swapRemove
  by_cases h : i + 1 < l.length
  · rw [if_pos h]
    simp [List.length_dropLast, List.length_set]
  · rw [if_neg h]
    simp [List.length_dropLast]

theorem omitIdxs_append (b : List (List Nat)) (mem : Nat → Bool) :
    ∀ (a : List (List Nat)) (base : Nat), omitIdxs (a ++ b) mem base =
      omitIdxs a mem base ++ omitIdxs b mem (base + a.length) := by
  intro a
  induction a with
  | nil =>
    intro base
    simp [omitIdxs]
  | cons p rest ih =>
    intro base
    simp only [List.cons_append, omitIdxs, List.append_eq, ih (base + 1),
      List.append_assoc, List.length_cons]
    have h : base + 1 + rest.length = base + (rest.length + 1) := by omega
    rw [h]

theorem omitIdxs_false (mem : Nat → Bool) :
    ∀ (l : List (List Nat)) (base : Nat),
      (∀ k, base ≤ k → k < base + l.length → mem k = false) →
      omitIdxs l mem base = l := by
  intro l
  induction l with
  | nil => intro base _; rfl
  | cons p rest ih =>
    intro base hf
    simp only [omitIdxs]
    rw [hf base (le_refl _) (by simp only [List.length_cons]; omega)]
    simp only [Bool.false_eq_true, if_false]
    rw [ih (base + 1) (by
      intro k h1 h2
      exact hf k (by omega) (by simp only [List.length_cons]; omega))]
    rfl

theorem omitIdxs_congr (mem mem' : Nat → Bool) :
    ∀ (l : List (List Nat)) (base : Nat),
      (∀ k, base ≤ k → k < base + l.length → mem k = mem' k) →
      omitIdxs l mem base = omitIdxs l mem' base := by
  intro l
  induction l with
  | nil => intro base _; rfl
  | cons p rest ih =>
    intro base hagree
    simp only [omitIdxs]
    rw [hagree base (le_refl _) (by simp only [List.length_cons]; omega)]
    rw [ih (base + 1) (by
      intro k h1 h2
      exact hagree k (by omega) (by simp only [List.length_cons]; omega))]

/-- One swap-with-last removal step at position `m` yields, up to
permutation, the same list as simply omitting position `m`, provided the
selection functions agree below `m`, select `m`, and select nothing past
`m`. -/
theorem omit_swapRemove_perm (paths : List (List Nat)) (m : Nat)
    (hm : m < paths.length) (mem mem' : Nat → Bool)
    (hlow : ∀ k, k < m → mem' k = mem k)
    (hm_true : mem m = true)
    (hhigh : ∀ k, m < k → mem k = false)
    (hhigh' : ∀ k, m ≤ k → mem' k = false) :
    (omitIdxs (swapRemove paths m) mem' 0).Perm (omitIdxs paths mem 0) := by
  have hsplit : paths.take m ++ paths.drop m = paths := List.take_append_drop m paths
  have hdm_len : (paths.drop m).length = paths.length - m := by simp
  have hA_len : (paths.take m).length = m := by
    simp only [List.length_take]
    omega
  obtain ⟨x, D, hds⟩ : ∃ x D, paths.drop m = x :: D := by
    cases hd : paths.drop m with
    | nil =>
      exfalso
      rw [hd] at hdm_len
      simp at hdm_len
      omega
    | cons x D => exact ⟨x, D, rfl⟩
  have hD_len : D.length = paths.length - m - 1 := by
    rw [hds] at hdm_len
    simp only [List.length_cons] at hdm_len
    omega
  have hdrop1 : paths.drop (m + 1) = D := by
    have h1 : paths.drop (m + 1) = (paths.drop m).drop 1 := by
      rw [List.drop_drop]
    rw [h1, hds]
    rfl
  have homit_A : omitIdxs (paths.take m) mem 0 = omitIdxs (paths.take m) mem' 0 := by
    apply omitIdxs_congr
    intro k h1 h2
    rw [hA_len] at h2
    exact (hlow k (by omega)).symm
  have hpaths_eq : paths = paths.take m ++ (x :: D) := by
    rw [← hds, hsplit]
  have hRHS : omitIdxs paths mem 0 =
      omitIdxs (paths.take m) mem 0 ++ omitIdxs D mem (m + 1) := by
    conv_lhs => rw [hpaths_eq]
    rw [omitIdxs_append, Nat.zero_add, hA_len]
    simp only [omitIdxs, hm_true, if_true]
    rfl
  have hD_omit : omitIdxs D mem (m + 1) = D :=
    omitIdxs_false mem D (m + 1) (by
      intro k h1 h2
      exact hhigh k (by omega))
  by_cases hcase : m + 1 < paths.length
  · have hD_ne : D ≠ [] := by
      intro hD
      rw [hD] at hD_len
      simp at hD_len
      omega
    have hz : paths.getD (paths.length - 1) [] = D.getLast hD_ne := by
      have hlt : paths.length - 1 < paths.length := by omega
      rw [List.getD_eq_getElem paths [] hlt, List.getLast_eq_getElem D hD_ne]
      have hDd : D = paths.drop (m + 1) := hdrop1.symm
      subst hDd
      rw [List.getElem_drop]
      congr 1
      simp only [List.length_drop]
      omega
    have hsw : swapRemove paths m =
        paths.take m ++ (paths.getD (paths.length - 1) [] :: D.dropLast) := by
      unfold swapRemove
      rw [if_pos hcase]
      rw [List.set_eq_take_cons_drop _ hm, hdrop1]
      rw [List.dropLast_append_cons]
      rw [List.dropLast_cons_of_ne_nil hD_ne]
    have hLHS : omitIdxs (swapRemove paths m) mem' 0 =
        omitIdxs (paths.take m) mem' 0 ++
          (paths.getD (paths.length - 1) [] :: D.dropLast) := by
      rw [hsw, omitIdxs_append, Nat.zero_add, hA_len]
      congr 1
      apply omitIdxs_false
      intro k h1 h2
      exact hhigh' k (by omega)
    rw [hLHS, hRHS, hD_omit, homit_A, hz]
    apply List.Perm.append_left
    have hcat : D.dropLast ++ [D.getLast hD_ne] = D :=
      List.dropLast_concat_getLast hD_ne
    have hperm : (D.getLast hD_ne :: D.dropLast).Perm
        (D.dropLast ++ [D.getLast hD_ne]) :=
      (List.perm_append_singleton _ _).symm
    rw [hcat] at hperm
    exact hperm
  · have hD_nil : D = [] := by
      have : D.length = 0 := by omega
      exact List.length_eq_zero.mp this
    subst hD_nil
    have hsw : swapRemove paths m = paths.take m := by
      unfold swapRemove
      rw [if_neg hcase]
      conv_lhs => rw [hpaths_eq]
      exact List.dropLast_concat
    rw [hsw, hRHS, hD_omit, homit_A]
    simp [List.Perm.refl]

theorem contains_eq_decide_mem (l : List Nat) (k : Nat) :
    l.contains k = decide (k ∈ l) := by
  rw [show l.contains k = l.elem k from rfl, List.elem_eq_mem]

/-- Processing a strictly ascending removal-index list from the largest
index down with swap-with-last steps removes, up to permutation, exactly
the selected positions. -/
theorem applyRemovals_perm_omit :
    ∀ (idxs : List Nat) (paths : List (List Nat)),
      List.Pairwise (· < ·) idxs → (∀ i ∈ idxs, i < paths.length) →
      (applyRemovals paths idxs).Perm
        (omitIdxs paths (fun k => idxs.contains k) 0) := by
  intro idxs
  induction idxs using List.reverseRecOn with
  | nil =>
    intro paths _ _
    unfold applyRemovals
    simp only [List.foldr_nil]
    rw [omitIdxs_false]
    intro k _ _
    rfl
  | append_singleton idxs m ih =>
    intro paths hpw hbound
    have hm_lt : m < paths.length := hbound m (by simp)
    have hsplitpw := List.pairwise_append.mp hpw
    have hidxs_lt_m : ∀ i ∈ idxs, i < m := by
      intro i hi
      exact hsplitpw.2.2 i hi m (by simp)
    unfold applyRemovals
    rw [List.foldr_append]
    simp only [List.foldr_cons, List.foldr_nil]
    have hih := ih (swapRemove paths m) hsplitpw.1 (by
      intro i hi
      have h1 := hidxs_lt_m i hi
      have h2 := swapRemove_length paths m hm_lt
      omega)
    unfold applyRemovals at hih
    refine hih.trans ?_
    apply omit_swapRemove_perm paths m hm_lt
    · intro k hk
      rw [contains_eq_decide_mem, contains_eq_decide_mem]
      simp only [List.mem_append, List.mem_singleton, decide_eq_decide]
      constructor
      · intro h
        exact Or.inl h
      · rintro (h | h)
        · exact h
        · omega
    · rw [contains_eq_decide_mem]
      simp [List.mem_append]
    · intro k hk
      rw [contains_eq_decide_mem]
      simp only [List.mem_append, List.mem_singleton, decide_eq_false_iff_not]
      rintro (h | h)
      · have := hidxs_lt_m k h
        omega
      · omega
    · intro k hk
      rw [contains_eq_decide_mem]
      simp only [decide_eq_false_iff_not]
      intro h
      have := hidxs_lt_m k h
      omega

theorem wcsicmp_refl (a : List Nat) : wcsicmp a a = .eq :=
  (wcsicmp_eq_iff a a).mpr rfl

theorem wcsicmp_eq_symm {a b : List Nat} (h : wcsicmp a b = .eq) :
    wcsicmp b a = .eq :=
  (wcsicmp_eq_iff b a).mpr ((wcsicmp_eq_iff a b).mp h).symm

theorem wcsicmp_eq_trans {a b c : List Nat} (h1 : wcsicmp a b = .eq)
    (h2 : wcsicmp b c = .eq) : wcsicmp a c = .eq :=
  (wcsicmp_eq_iff a c).mpr
    (((wcsicmp_eq_iff a b).mp h1).trans ((wcsicmp_eq_iff b c).mp h2))

theorem mapFind_none (m : List (List Nat × Nat)) (name : List Nat) :
    mapFind m name = none ↔ ∀ kv ∈ m, wcsicmp kv.1 name ≠ .eq := by
  induction m with
  | nil => simp [mapFind]
  | cons kv rest ih =>
    simp only [mapFind]
    by_cases h : wcsicmp kv.1 name = .eq
    · rw [if_pos h]
      simp only [List.mem_cons]
      constructor
      · intro hc
        cases hc
      · intro hall
        exact absurd h (hall kv (Or.inl rfl))
    · rw [if_neg h]
      rw [ih]
      constructor
      · intro hall kv' hkv'
        rcases List.mem_cons.mp hkv' with he | hm
        · subst he
          exact h
        · exact hall kv' hm
      · intro hall kv' hkv'
        exact hall kv' (List.mem_cons_of_mem _ hkv')

theorem mapFind_decomp (name : List Nat) (prev i : Nat) :
    ∀ m : List (List Nat × Nat), mapFind m name = some prev →
    ∃ pre kv post, m = pre ++ kv :: post ∧ kv.2 = prev ∧
      wcsicmp kv.1 name = .eq ∧ (∀ kv' ∈ pre, wcsicmp kv'.1 name ≠ .eq) ∧
      mapUpdate m name i = pre ++ (kv.1, i) :: post := by
  intro m
  induction m with
  | nil => intro h; cases h
  | cons kv1 rest ih =>
    intro h
    simp only [mapFind] at h
    by_cases hm : wcsicmp kv1.1 name = .eq
    · rw [if_pos hm] at h
      injection h with h
      refine ⟨[], kv1, rest, by simp, h, hm, by simp, ?_⟩
      simp only [mapUpdate, if_pos hm, List.nil_append]
    · rw [if_neg hm] at h
      rcases ih h with ⟨pre, kv, post, hsplit, hprev, heq, hpre, hupd⟩
      refine ⟨kv1 :: pre, kv, post, by rw [hsplit]; rfl, hprev, heq, ?_, ?_⟩
      · intro kv' hkv'
        rcases List.mem_cons.mp hkv' with he | hmem
        · subst he
          exact hm
        · exact hpre kv' hmem
      · simp only [mapUpdate, if_neg hm, hupd]
        rfl

/-- Bare file name of the path at position `k`. -/
def fileNameAt (paths : List (List Nat)) (k : Nat) : List Nat :=
  extractFileName (paths.getD k [])

/-- Invariant of the `RemoveFileNameDuplicates` scanning loop after the
first `i` paths have been processed: `rem` holds exactly the superseded
positions so far (each with a later same-name position below `i`), without
duplicates; `m` maps each file-name class seen so far to its latest
position, with pairwise inequivalent keys. -/
def DupInv (paths : List (List Nat)) (i : Nat) (m : List (List Nat × Nat))
    (rem : List Nat) : Prop :=
  (∀ k, k ∈ rem ↔ (k < i ∧ ∃ j, k < j ∧ j < i ∧
      wcsicmp (fileNameAt paths k) (fileNameAt paths j) = .eq)) ∧
  rem.Nodup ∧
  (∀ kv ∈ m, kv.2 < i ∧ wcsicmp kv.1 (fileNameAt paths kv.2) = .eq ∧
    kv.2 ∉ rem ∧
    (∀ j, kv.2 < j → j < i →
      wcsicmp (fileNameAt paths kv.2) (fileNameAt paths j) ≠ .eq)) ∧
  (∀ k, k < i → ∃ kv ∈ m, wcsicmp (fileNameAt paths k) kv.1 = .eq) ∧
  m.Pairwise (fun a b => wcsicmp a.1 b.1 ≠ .eq)

theorem buildDupState_inv (paths : List (List Nat)) :
    ∀ (suffix : List (List Nat)) (i : Nat) (m : List (List Nat × Nat))
      (rem : List Nat),
      suffix = paths.drop i → i ≤ paths.length → DupInv paths i m rem →
      (∀ k, k ∈ (buildDupState suffix i m rem).2 ↔
        (k < paths.length ∧ ∃ j, k < j ∧ j < paths.length ∧
          wcsicmp (fileNameAt paths k) (fileNameAt paths j) = .eq)) ∧
      (buildDupState suffix i m rem).2.Nodup := by
  intro suffix
  induction suffix with
  | nil =>
    intro i m rem hsuf hle hinv
    have hlen : paths.length ≤ i := by
      have := congrArg List.length hsuf
      simp only [List.length_nil, List.length_drop] at this
      omega
    have hi : i = paths.length := by omega
    subst hi
    exact ⟨hinv.1, hinv.2.1⟩
  | cons p rest ih =>
    intro i m rem hsuf hle hinv
    obtain ⟨hI1, hI2, hI3, hI4, hI5⟩ := hinv
    have hi_lt : i < paths.length := by
      have := congrArg List.length hsuf
      simp only [List.length_cons, List.length_drop] at this
      omega
    have hp : paths.getD i [] = p := by
      have h0 : (paths.drop i).getD 0 [] = p := by rw [← hsuf]; rfl
      rw [List.getD_eq_getElem _ _ (by simp only [List.length_drop]; omega)] at h0
      rw [List.getD_eq_getElem _ _ hi_lt]
      rw [List.getElem_drop] at h0
      simpa using h0
    have hrest : rest = paths.drop (i + 1) := by
      have h1 : paths.drop (i + 1) = (paths.drop i).drop 1 := by rw [List.drop_drop]
      rw [h1, ← hsuf]
      rfl
    have hname : extractFileName p = fileNameAt paths i := by
      rw [fileNameAt, hp]
    simp only [buildDupState]
    cases hfind : mapFind m (extractFileName p) with
    | none =>
      have hnone := (mapFind_none m (extractFileName p)).mp hfind
      have hclass : ∀ k, k < i →
          wcsicmp (fileNameAt paths k) (fileNameAt paths i) ≠ .eq := by
        intro k hk heq
        rcases hI4 k hk with ⟨kv, hkv_mem, hkv_eq⟩
        apply hnone kv hkv_mem
        rw [hname]
        exact wcsicmp_eq_trans (wcsicmp_eq_symm hkv_eq) heq
      apply ih (i + 1) (m ++ [(extractFileName p, i)]) rem hrest (by omega)
      refine ⟨?_, hI2, ?_, ?_, ?_⟩
      · intro k
        rw [hI1 k]
        constructor
        · rintro ⟨hk, j, hj1, hj2, hj3⟩
          exact ⟨by omega, j, hj1, by omega, hj3⟩
        · rintro ⟨hk, j, hj1, hj2, hj3⟩
          by_cases hji : j = i
          · subst hji
            exact absurd hj3 (hclass k (by omega))
          · exact ⟨by omega, j, hj1, by omega, hj3⟩
      · intro kv hkv
        rcases List.mem_append.mp hkv with hold | hnew
        · rcases hI3 kv hold with ⟨h1, h2, h3, h4⟩
          refine ⟨by omega, h2, h3, ?_⟩
          intro j hj1 hj2
          by_cases hji : j = i
          · subst hji
            exact hclass kv.2 h1
          · exact h4 j hj1 (by omega)
        · have hkv' : kv = (extractFileName p, i) := by simpa using hnew
          subst hkv'
          refine ⟨by omega, by rw [hname]; exact wcsicmp_refl _, ?_, ?_⟩
          · intro hmem
            have := (hI1 i).mp hmem
            omega
          · intro j hj1 hj2
            omega
      · intro k hk
        by_cases hki : k = i
        · exact ⟨(extractFileName p, i), List.mem_append_right _ (by simp),
            by rw [hki, hname]; exact wcsicmp_eq_symm (wcsicmp_refl _)⟩
        · rcases hI4 k (by omega) with ⟨kv, hkv_mem, hkv_eq⟩
          exact ⟨kv, List.mem_append_left _ hkv_mem, hkv_eq⟩
      · rw [List.pairwise_append]
        refine ⟨hI5, by simp, ?_⟩
        intro a ha b hb
        have hb' : b = (extractFileName p, i) := by simpa using hb
        subst hb'
        exact hnone a ha
    | some prev =>
      rcases mapFind_decomp (extractFileName p) prev i m hfind with
        ⟨pre, kv0, post, hsplit, hprev, heq0, hpre_ne, hupd⟩
      have hkv0_mem : kv0 ∈ m := by
        rw [hsplit]
        exact List.mem_append_right _ (List.mem_cons_self _ _)
      rcases hI3 kv0 hkv0_mem with ⟨hkv0_lt, hkv0_eq, hkv0_notrem, hkv0_norange⟩
      have hprev_lt : prev < i := by omega
      have heq0' : wcsicmp kv0.1 (fileNameAt paths i) = .eq := by
        rw [← hname]
        exact heq0
      have hprev_class : wcsicmp (fileNameAt paths prev) (fileNameAt paths i) = .eq := by
        rw [← hprev]
        exact wcsicmp_eq_trans (wcsicmp_eq_symm hkv0_eq) heq0'
      have hpost_ne : ∀ kv' ∈ post, wcsicmp kv'.1 (extractFileName p) ≠ .eq := by
        intro kv' hkv' hc
        rw [hsplit] at hI5
        have hpw := (List.pairwise_append.mp hI5).2.1
        have h1 := (List.pairwise_cons.mp hpw).1 kv' hkv'
        exact h1 (wcsicmp_eq_trans heq0 (wcsicmp_eq_symm hc))
      have huniq : ∀ kv ∈ m, wcsicmp kv.1 (extractFileName p) = .eq → kv = kv0 := by
        intro kv hkv hc
        rw [hsplit] at hkv
        rcases List.mem_append.mp hkv with hp1 | hp2
        · exact absurd hc (hpre_ne kv hp1)
        · rcases List.mem_cons.mp hp2 with he | hp3
          · exact he
          · exact absurd hc (hpost_ne kv hp3)
      apply ih (i + 1) (mapUpdate m (extractFileName p) i) (rem ++ [prev]) hrest
        (by omega)
      rw [hupd]
      refine ⟨?_, ?_, ?_, ?_, ?_⟩
      · intro k
        simp only [List.mem_append, List.mem_singleton]
        constructor
        · rintro (hk | hk)
          · rcases (hI1 k).mp hk with ⟨h1, j, hj1, hj2, hj3⟩
            exact ⟨by omega, j, hj1, by omega, hj3⟩
          · subst hk
            exact ⟨by omega, i, hprev_lt, by omega, hprev_class⟩
        · rintro ⟨hk, j, hj1, hj2, hj3⟩
          by_cases hji : j = i
          · rw [hji] at hj1 hj3
            have hk_lt : k < i := hj1
            by_cases hkprev : k = prev
            · exact Or.inr hkprev
            · left
              rcases hI4 k hk_lt with ⟨kv, hkv_mem, hkv_eq⟩
              have hkvname : wcsicmp kv.1 (extractFileName p) = .eq := by
                rw [hname]
                exact wcsicmp_eq_trans (wcsicmp_eq_symm hkv_eq) hj3
              have hkv0' := huniq kv hkv_mem hkvname
              subst hkv0'
              have hk_class : wcsicmp (fileNameAt paths k) (fileNameAt paths prev) = .eq := by
                have h1 : wcsicmp (fileNameAt paths k) kv.1 = .eq := hkv_eq
                have h2 : wcsicmp kv.1 (fileNameAt paths prev) = .eq := by
                  rw [← hprev]
                  exact hkv0_eq
                exact wcsicmp_eq_trans h1 h2
              have hk_lt_prev : k < prev := by
                rcases Nat.lt_trichotomy k prev with h | h | h
                · exact h
                · exact absurd h hkprev
                · exfalso
                  apply hkv0_norange k (by omega) hk_lt
                  rw [hprev]
                  exact wcsicmp_eq_symm hk_class
              exact (hI1 k).mpr ⟨hk_lt, prev, hk_lt_prev, hprev_lt, hk_class⟩
          · exact Or.inl ((hI1 k).mpr ⟨by omega, j, hj1, by omega, hj3⟩)
      · rw [List.nodup_append]
        refine ⟨hI2, by simp, ?_⟩
        intro a ha hb
        rw [List.mem_singleton] at hb
        subst hb
        rw [← hprev] at ha
        exact hkv0_notrem ha
      · intro kv' hkv'
        have hnotname : kv' ∈ pre ∨ kv' ∈ post →
            wcsicmp kv'.1 (extractFileName p) ≠ .eq := by
          rintro (h | h)
          · exact hpre_ne kv' h
          · exact hpost_ne kv' h
        have hold_case : kv' ∈ pre ∨ kv' ∈ post →
            kv'.2 < i + 1 ∧ wcsicmp kv'.1 (fileNameAt paths kv'.2) = .eq ∧
            kv'.2 ∉ rem ++ [prev] ∧
            (∀ j, kv'.2 < j → j < i + 1 →
              wcsicmp (fileNameAt paths kv'.2) (fileNameAt paths j) ≠ .eq) := by
          intro hcase
          have hkv'm : kv' ∈ m := by
            rw [hsplit]
            rcases hcase with h | h
            · exact List.mem_append_left _ h
            · exact List.mem_append_right _ (List.mem_cons_of_mem _ h)
          rcases hI3 kv' hkv'm with ⟨h1, h2, h3, h4⟩
          refine ⟨by omega, h2, ?_, ?_⟩
          · rw [List.mem_append, List.mem_singleton]
            rintro (hc | hc)
            · exact h3 hc
            · apply hnotname hcase
              rw [hname]
              have ha : wcsicmp kv'.1 (fileNameAt paths prev) = .eq := by
                rw [← hc]
                exact h2
              exact wcsicmp_eq_trans ha hprev_class
          · intro j hj1 hj2
            by_cases hji : j = i
            · subst hji
              intro hc
              apply hnotname hcase
              rw [hname]
              exact wcsicmp_eq_trans h2 hc
            · exact h4 j hj1 (by omega)
        rcases List.mem_append.mp hkv' with hp1 | hmid
        · exact hold_case (Or.inl hp1)
        · rcases List.mem_cons.mp hmid with he | hp3
          · subst he
            refine ⟨by omega, heq0', ?_, ?_⟩
            · rw [List.mem_append, List.mem_singleton]
              rintro (hc | hc)
              · have := (hI1 i).mp hc
                omega
              · omega
            · intro j hj1 hj2
              omega
          · exact hold_case (Or.inr hp3)
      · intro k hk
        by_cases hki : k = i
        · refine ⟨(kv0.1, i), ?_, ?_⟩
          · exact List.mem_append_right _ (List.mem_cons_self _ _)
          · rw [hki]
            exact wcsicmp_eq_symm heq0'
        · rcases hI4 k (by omega) with ⟨kv, hkv_mem, hkv_eq⟩
          rw [hsplit] at hkv_mem
          rcases List.mem_append.mp hkv_mem with hp1 | hp2
          · exact ⟨kv, List.mem_append_left _ hp1, hkv_eq⟩
          · rcases List.mem_cons.mp hp2 with he | hp3
            · refine ⟨(kv0.1, i), List.mem_append_right _ (List.mem_cons_self _ _), ?_⟩
              rw [← he]
              exact hkv_eq
            · exact ⟨kv, List.mem_append_right _ (List.mem_cons_of_mem _ hp3), hkv_eq⟩
      · rw [hsplit] at hI5
        have hkeys : (pre ++ (kv0.1, i) :: post).map Prod.fst =
            (pre ++ kv0 :: post).map Prod.fst := by
          simp
        have h2 : ((pre ++ kv0 :: post).map Prod.fst).Pairwise
            (fun a b => wcsicmp a b ≠ .eq) := by
          rw [List.pairwise_map]
          exact hI5
        rw [← hkeys] at h2
        rw [List.pairwise_map] at h2
        exact h2

theorem buildDupState_spec (paths : List (List Nat)) :
    (∀ k, k ∈ (buildDupState paths 0 [] []).2 ↔
      (k < paths.length ∧ ∃ j, k < j ∧ j < paths.length ∧
        wcsicmp (fileNameAt paths k) (fileNameAt paths j) = .eq)) ∧
    (buildDupState paths 0 [] []).2.Nodup := by
  apply buildDupState_inv paths paths 0 [] [] (by simp) (by omega)
  refine ⟨?_, List.nodup_nil, ?_, ?_, List.Pairwise.nil⟩
  · intro k
    simp
  · intro kv hkv
    cases hkv
  · intro k hk
    omega

theorem omitIdxs_eq_survivors :
    ∀ (l : List (List Nat)) (memB : Nat → Bool) (base : Nat),
      (∀ t, t < l.length → (memB (base + t) = true ↔
        ∃ q ∈ l.drop (t + 1),
          wcsicmp (extractFileName (l.getD t [])) (extractFileName q) = .eq)) →
      omitIdxs l memB base = lastOccurrenceSurvivors l := by
  intro l
  induction l with
  | nil => intro memB base _; rfl
  | cons p rest ih =>
    intro memB base hmem
    simp only [omitIdxs, lastOccurrenceSurvivors]
    have hhead : memB base =
        rest.any (fun q => wcsicmp (extractFileName p) (extractFileName q) == .eq) := by
      rw [Bool.eq_iff_iff]
      have h0 := hmem 0 (by simp only [List.length_cons]; omega)
      simp only [Nat.add_zero, List.drop_succ_cons, List.drop_zero,
        List.getD_cons_zero] at h0
      rw [h0, List.any_eq_true]
      constructor
      · rintro ⟨q, hq1, hq2⟩
        exact ⟨q, hq1, (ordering_beq_iff _ _).mpr hq2⟩
      · rintro ⟨q, hq1, hq2⟩
        exact ⟨q, hq1, (ordering_beq_iff _ _).mp hq2⟩
    rw [hhead, ih memB (base + 1)]
    intro t ht
    have h1 := hmem (t + 1) (by simp only [List.length_cons]; omega)
    have harith : base + (t + 1) = base + 1 + t := by omega
    rw [harith] at h1
    simpa using h1

/-- C8: flatten-mode duplicate resolution keeps, as a multiset, exactly the
input paths whose bare file name (case-insensitively) does not occur again
at a later position — for each file name only the last-occurring candidate
survives. -/
theorem c8_flatten_duplicate_resolution (paths : List (List Nat)) :
    (removeFileNameDuplicates paths).Perm (lastOccurrenceSurvivors paths) := by
  unfold removeFileNameDuplicates
  obtain ⟨hchar, hnodup⟩ := buildDupState_spec paths
  have hperm_sort := List.mergeSort_perm (buildDupState paths 0 [] []).2
    (fun a b => a ≤ b)
  have hmem_sort : ∀ k, k ∈ (buildDupState paths 0 [] []).2.mergeSort
      (fun a b => a ≤ b) ↔ k ∈ (buildDupState paths 0 [] []).2 :=
    fun k => hperm_sort.mem_iff
  have hnodup_sort : ((buildDupState paths 0 [] []).2.mergeSort
      (fun a b => a ≤ b)).Nodup := hperm_sort.nodup_iff.mpr hnodup
  have hsorted_le : ((buildDupState paths 0 [] []).2.mergeSort
      (fun a b => a ≤ b)).Pairwise (· ≤ ·) := by
    have := @List.sorted_mergeSort Nat (fun a b : Nat => decide (a ≤ b))
      (by intro a b c h1 h2; simp only [decide_eq_true_eq] at *; omega)
      (by intro a b; simp only [Bool.or_eq_true, decide_eq_true_eq]; omega)
      (buildDupState paths 0 [] []).2
    exact this.imp (by intro a b h; simpa using h)
  have hsorted_lt : ((buildDupState paths 0 [] []).2.mergeSort
      (fun a b => a ≤ b)).Pairwise (· < ·) := by
    have hne : ((buildDupState paths 0 [] []).2.mergeSort
        (fun a b => a ≤ b)).Pairwise (· ≠ ·) := hnodup_sort
    exact (hsorted_le.and hne).imp (by intro a b h; omega)
  have hbounds : ∀ i ∈ (buildDupState paths 0 [] []).2.mergeSort
      (fun a b => a ≤ b), i < paths.length := by
    intro i hi
    exact ((hchar i).mp ((hmem_sort i).mp hi)).1
  have h1 := applyRemovals_perm_omit _ paths hsorted_lt hbounds
  refine h1.trans ?_
  rw [omitIdxs_eq_survivors]
  intro t ht
  rw [contains_eq_decide_mem]
  simp only [Nat.zero_add, decide_eq_true_eq]
  rw [hmem_sort, hchar]
  constructor
  · rintro ⟨h1', j, hj1, hj2, hj3⟩
    refine ⟨paths.getD j [], ?_, hj3⟩
    rw [List.getD_eq_getElem _ _ hj2]
    rw [List.mem_iff_getElem]
    refine ⟨j - (t + 1), by simp only [List.length_drop]; omega, ?_⟩
    rw [List.getElem_drop]
    congr 1
    omega
  · rintro ⟨q, hq1, hq2⟩
    rw [List.mem_iff_getElem] at hq1
    rcases hq1 with ⟨j0, hj0, hjq⟩
    simp only [List.length_drop] at hj0
    refine ⟨ht, t + 1 + j0, by omega, by omega, ?_⟩
    have : paths.getD (t + 1 + j0) [] = q := by
      rw [List.getD_eq_getElem _ _ (by omega), ← hjq, List.getElem_drop]
    rw [fileNameAt, fileNameAt, this]
    exact hq2

theorem nextLive_serialize_live (e : Entry) (rest : List Nat) (hwf : WFEntry e)
    (hlive : e.header.flags &&& kEntryFlagDeleted = 0) :
    nextLive (serializeEntry e ++ rest) = .ok (some (e.header, e.path)) := by
  have hrt := readEntryHeader_serializeEntry e rest hwf
  rw [nextLive.eq_def]
  split
  · rename_i err heq
    rw [hrt] at heq
    cases heq
  · rename_i heq
    rw [hrt] at heq
    cases heq
  · rename_i h' p' rest' heq
    rw [hrt] at heq
    simp only [Except.ok.injEq, Option.some.injEq, Prod.mk.injEq] at heq
    obtain ⟨h1, h2, h3⟩ := heq
    subst h1
    subst h2
    rw [if_neg (by rw [hlive]; exact fun hc => hc rfl)]

/-- A tombstoned entry (Deleted flag set), used to exercise the skip path. -/
def cxDeletedEntry : Entry :=
  { header := { magic := kEntryMagic, flags := 1, attributes := 32, time := 0,
                pack_size := 2, unp_size := 2, path_len := 1 },
    path := [120],
    payload := [7, 7] }

/-- A live entry whose in-archive path is `"Dir\\Sub\\B.txt"`. -/
def cxNestedEntry : Entry :=
  { header := { magic := kEntryMagic, flags := 0, attributes := 32, time := 0,
                pack_size := 1, unp_size := 1, path_len := 13 },
    path := [68, 105, 114, 92, 83, 117, 98, 92, 66, 46, 116, 120, 116],
    payload := [9] }

theorem cx_normalizeDeleteList_eval :
    normalizeDeleteList [[68, 105, 114, 92, 42, 46, 42]] = [[68, 73, 82]] := by
  simp [normalizeDeleteList, normalizeDeletePath, stripTrailingSlash,
    upperCase, towupper]

theorem cx_shouldDelete_dir :
    shouldDelete [68, 105, 114] [[68, 73, 82]] = true := by
  have hlb : lowerBound listLt [[68, 73, 82]] [68, 73, 82] = 0 := by
    rw [lowerBound, lowerBoundAux, dif_neg (by decide), if_neg (by decide),
      lowerBoundAux, dif_pos (by decide)]
  rw [shouldDelete]
  have hup : upperCase [68, 105, 114] = [68, 73, 82] := by decide
  rw [hup, shouldDeleteGo]
  rw [dif_neg (by decide)]
  simp only [hlb]
  rw [if_pos (by decide)]

/-- Witness for C2: a concrete structure-preserving pack whose candidate
list and in-archive path list are both sorted. -/
theorem c2_witness :
    List.Pairwise (fun a b => stricmpLt b a = false)
      (packCandidates true cxAddList) ∧
    List.Pairwise (fun a b => stricmpLt b a = false)
      (archivePaths true [] (packCandidates true cxAddList)) := by
  have hpc : packCandidates true cxAddList =
      [[65, 92, 98, 46, 116, 120, 116], [66, 92, 97, 46, 116, 120, 116]] := by
    simp [packCandidates, cxAddList, stripTrailingSlash, List.mergeSort,
      List.splitInTwo, List.splitAt, List.splitAt.go, List.merge,
      stricmpLt, wcsicmp, towlower]
    decide
  refine ⟨c2_candidates_sorted_by_relative_path.1 true cxAddList,
    c2_candidates_sorted_by_relative_path.2 [] cxAddList ?_⟩
  rw [hpc]
  decide

/-- A live one-payload-byte entry whose in-archive path is `"Dir"`. -/
def cxDirEntry : Entry :=
  { header := { magic := kEntryMagic, flags := 0, attributes := 32, time := 0,
                pack_size := 2, unp_size := 2, path_len := 3 },
    path := [68, 105, 114],
    payload := [5, 6] }

/-- Witness for C3: erasing `"Dir"` from a one-entry archive keeps the file
length and ORs the Deleted bit into the flags byte at absolute offset 12
(8-byte file magic + offset 4 in the entry header). -/
theorem c3_witness :
    (serializeArchive (deleteIf (fun p => shouldDelete p [[68, 73, 82]])
        [cxDirEntry])).length = (serializeArchive [cxDirEntry]).length ∧
    (serializeArchive (deleteIf (fun p => shouldDelete p [[68, 73, 82]])
        [cxDirEntry])).getD 12 0 =
      ((serializeArchive [cxDirEntry]).getD 12 0) ||| kEntryFlagDeleted := by
  have h := c3_erase_rewrites_only_matched_flags_bytes [[68, 73, 82]]
    [cxDirEntry] (by
      intro e he
      rw [List.mem_singleton] at he
      subst he
      decide)
  have hmem : 12 ∈ flagsOffsets (fun p => shouldDelete p [[68, 73, 82]])
      [cxDirEntry] 8 := by
    simp only [flagsOffsets, cx_shouldDelete_dir, cxDirEntry]
    norm_num
  exact ⟨h.1, (h.2.1 12 hmem).1⟩

/-- Witness for C4: on a concrete archive holding a tombstoned entry
followed by a live file, the scan skips the tombstone, the returned entry
has the Deleted flag clear, and `ReadHeaderExW` returns it. -/
theorem c4_witness :
    cxEntry.header.flags &&& kEntryFlagDeleted = 0 ∧
    nextLive (serializeEntry cxDeletedEntry ++ serializeEntry cxEntry) =
      nextLive (serializeEntry cxEntry) ∧
    readHeaderExW (serializeEntry cxEntry ++ []) =
      .ok (cxEntry.header, cxEntry.path) := by
  have hnl : nextLive (serializeEntry cxEntry ++ []) =
      .ok (some (cxEntry.header, cxEntry.path)) :=
    nextLive_serialize_live cxEntry [] (by decide) (by decide)
  refine ⟨?_, ?_, ?_⟩
  · exact c4_read_header_skips_deleted_and_validates.1
      (serializeEntry cxEntry ++ []) cxEntry.header cxEntry.path hnl
  · exact c4_read_header_skips_deleted_and_validates.2.2.2
      cxDeletedEntry (serializeEntry cxEntry) (by decide) (by decide)
  · exact ((c4_read_header_skips_deleted_and_validates.2.2.1
      (serializeEntry cxEntry ++ []) cxEntry.header cxEntry.path hnl).2.2
      (by decide) (by decide))

/-- Witness for C5: empty input gives end of archive; a full 28-byte header
of zeros fails with `E_BAD_ARCHIVE` (bad magic); a correct magic with a
zero path length fails with `E_BAD_ARCHIVE`; a declared path length of
1024 fails with `E_SMALL_BUF`. -/
theorem c5_witness :
    readEntryHeader [] = .ok none ∧
    readEntryHeader (List.replicate 28 0) = .error E_BAD_ARCHIVE ∧
    readEntryHeader ([241, 200, 67, 23] ++ List.replicate 24 0) =
      .error E_BAD_ARCHIVE ∧
    readEntryHeader ([241, 200, 67, 23] ++ List.replicate 22 0 ++ [0, 4]) =
      .error E_SMALL_BUF := by
  refine ⟨?_, ?_, ?_, ?_⟩
  · exact (c5_decoder_error_classification []).1 rfl
  · exact (c5_decoder_error_classification _).2.2.1 (by decide) (by decide)
  · exact (c5_decoder_error_classification _).2.2.2.1 (by decide) (by decide)
      (by decide)
  · exact (c5_decoder_error_classification _).2.2.2.2 (by decide) (by decide)
      (by decide)

/-- Witness for C6: a concrete stalled iteration and a short stream-end
both fail with `E_BAD_ARCHIVE`; a memory error aborts with `E_NO_MEMORY`;
`Z_DATA_ERROR` maps to `E_BAD_DATA`. -/
theorem c6_witness :
    unpackLoop 5 [{ zres := Z_OK, consumed := 0, produced := 0 }] 0 0 0 =
      .error E_BAD_ARCHIVE ∧
    unpackLoop 5 [{ zres := Z_STREAM_END, consumed := 0, produced := 0 }] 0 0 0 =
      .error E_BAD_ARCHIVE ∧
    ZlibResultToWcxException Z_DATA_ERROR = some E_BAD_DATA ∧
    unpackLoop 5 [{ zres := Z_MEM_ERROR, consumed := 0, produced := 0 }] 0 0 0 =
      .error E_NO_MEMORY := by
  refine ⟨?_, ?_, ?_, ?_⟩
  · exact c6_unpack_stall_size_check_and_error_mapping.1 5 _ [] 0 0 0
      (by intro hc; exact absurd hc.2 (by omega)) rfl rfl
  · exact c6_unpack_stall_size_check_and_error_mapping.2.1 5 _ [] 0 0 0 rfl
      (by decide)
  · exact c6_unpack_stall_size_check_and_error_mapping.2.2.1.2.2 Z_DATA_ERROR
      (by decide) (by decide) (by decide)
  · exact c6_unpack_stall_size_check_and_error_mapping.2.2.2 5 _ [] 0 0 0
      E_NO_MEMORY (by decide) (by decide) rfl

/-- Witness for C7: erasing `"Dir\\*.*"` from an archive holding the live
entry `"Dir"` succeeds and tombstones it (its upper-cased path is in the
normalized deletion set). -/
theorem c7_witness :
    ∃ result : DiskFile,
      deleteFilesW (some { header := kFileHeaderBytes, entries := [cxDirEntry] })
        [[68, 105, 114, 92, 42, 46, 42]] = .ok (0, some result) ∧
      result.entries.length = 1 ∧
      ((result.entries.getD 0 default).header.flags &&& kEntryFlagDeleted ≠ 0 ↔
        ∃ q ∈ iterAncestors (upperCase cxDirEntry.path),
          q ∈ normalizeDeleteList [[68, 105, 114, 92, 42, 46, 42]]) := by
  have h := c7_erase_matches_path_or_ancestor
    { header := kFileHeaderBytes, entries := [cxDirEntry] }
    [[68, 105, 114, 92, 42, 46, 42]] 0
    (by rw [cx_normalizeDeleteList_eval]; decide)
    rfl (by decide) (by decide)
  exact h

/-- Witness for C9: with a dummy encoder, a 15-byte file is stored raw with
equal sizes, and a 16-byte file is compressed (flag set, payload from the
encoder). -/
theorem c9_witness :
    (packFileEntry (fun _ => [3]) [] (List.replicate 15 0)).payload =
      List.replicate 15 0 ∧
    (packFileEntry (fun _ => [3]) [] (List.replicate 15 0)).header.pack_size =
      (packFileEntry (fun _ => [3]) [] (List.replicate 15 0)).header.unp_size ∧
    (packFileEntry (fun _ => [3]) [] (List.replicate 16 0)).payload = [3] ∧
    (packFileEntry (fun _ => [3]) [] (List.replicate 16 0)).header.flags =
      kEntryFlagCompressed := by
  have h15 := (c9_compression_threshold_policy (fun _ => [3]) []
    (List.replicate 15 0)).2.1 (by decide)
  have h16 := (c9_compression_threshold_policy (fun _ => [3]) []
    (List.replicate 16 0)).2.2.1 (by decide)
  exact ⟨h15.1, h15.2.2, h16.1, h16.2.2⟩
